import Mathlib

/-!
Verification of the libtrellis tile bit database (BitDatabase.hpp).

The data model is translated from `src/libtrellis/include/BitDatabase.hpp`.
The member-function bodies live in `BitDatabase.cpp`, which is not part of
the source tree given here; those behaviours are modelled from the
specification (spec.md, sections 4.1-4.5) and each such definition is
marked `Modelled from the spec:` in its doc comment.

CRAM bits are addressed by `(frame, bit)` coordinates; C++ `int` is
modelled as `Int` (no arithmetic that could overflow occurs here).
-/

namespace Trellis

/-- A single configuration bit, given by its offset inside the tile and
whether or not it is inverted (BitDatabase.hpp lines 25-33). -/
structure ConfigBit where
  frame : Int
  bit : Int
  inv : Bool
deriving DecidableEq, Repr

/-- `BitSet` is an unordered set of `ConfigBit`s, used as a coverage
accumulator (BitDatabase.hpp line 50, `unordered_set<ConfigBit>`). -/
abbrev BitSet := Finset ConfigBit

/-- The character for a decimal digit (ASCII 48 + digit). -/
def digitChar (d : Nat) : Char :=
  Char.ofNat (48 + d)

/-- Decimal digit characters of a natural number, most significant
first, as `ostream` prints a non-negative `int`. -/
def natDigits (n : Nat) : List Char :=
  if _h : n < 10 then [digitChar n]
  else natDigits (n / 10) ++ [digitChar (n % 10)]
decreasing_by
  exact Nat.div_lt_self (by omega) (by omega)

/-- Decimal representation of an `Int`, as `ostream <<` prints a C++
`int`. -/
def intRepr (i : Int) : String :=
  if i < 0 then "-" ++ String.mk (natDigits (-i).toNat)
  else String.mk (natDigits i.toNat)

/-- Write a configuration bit to string (BitDatabase.hpp lines 53-59):
a leading `!` when inverted, then `F<frame>B<bit>`. -/
def to_string (b : ConfigBit) : String :=
  (if b.inv then "!" else "") ++ "F" ++ intRepr b.frame ++ "B" ++ intRepr b.bit

/-- Decimal left fold over digit characters. -/
def parseNat : List Char → Nat → Nat
  | [], acc => acc
  | c :: rest, acc => parseNat rest (acc * 10 + (c.toNat - 48))

/-- Parse the `<frame>B<bit>` body of a configuration-bit token. -/
def cbit_body (l : List Char) (inv : Bool) : ConfigBit :=
  ⟨(parseNat (l.takeWhile fun c => c != 'B') 0 : Nat),
   (parseNat ((l.dropWhile fun c => c != 'B').drop 1) 0 : Nat), inv⟩

/-- Modelled from the spec: `cbit_from_str` (declared at BitDatabase.hpp
line 62, body in BitDatabase.cpp, absent from src): read a configuration
bit from its `[!]F<frame>B<bit>` textual form. -/
def cbit_from_str (s : String) : ConfigBit :=
  match s.data with
  | [] => ⟨0, 0, false⟩
  | c1 :: rest1 =>
    if c1 = '!' then
      match rest1 with
      | [] => ⟨0, 0, false⟩
      | c2 :: rest2 => if c2 = 'F' then cbit_body rest2 true else ⟨0, 0, false⟩
    else if c1 = 'F' then cbit_body rest1 false
    else ⟨0, 0, false⟩

/-- A CRAM view: the `(frame, bit)` read interface consumed by the
database (spec section 6, collaborator interfaces). -/
structure CRAMView where
  read : Int → Int → Bool

/-- Point update of a CRAM view (`CRAMView::bit`, write interface). -/
def CRAMView.write (t : CRAMView) (f b : Int) (v : Bool) : CRAMView :=
  ⟨fun f' b' => if f' = f ∧ b' = b then v else t.read f' b'⟩

/-- The all-zero CRAM. -/
def CRAMView.zero : CRAMView :=
  ⟨fun _ _ => false⟩

/-- A BitGroup is a list of configuration bits that correspond to a given
setting (BitDatabase.hpp lines 67-85). -/
structure BitGroup where
  bits : List ConfigBit
deriving DecidableEq, Repr

/-- Modelled from the spec: `BitGroup::match` (body in BitDatabase.cpp,
absent from src): true iff every member bit reads as `1 XOR inv`,
i.e. `cram.read(cb.frame, cb.bit) != cb.inv` for every bit. -/
def BitGroup.matches (g : BitGroup) (tile : CRAMView) : Bool :=
  g.bits.all fun cb => tile.read cb.frame cb.bit != cb.inv

/-- Modelled from the spec: `BitGroup::add_coverage` (body in
BitDatabase.cpp, absent from src): insert all member bits into the
coverage set. -/
def BitGroup.add_coverage (g : BitGroup) (known_bits : BitSet) : BitSet :=
  known_bits ∪ g.bits.toFinset

/-- Modelled from the spec: `BitGroup::set_group` (body in
BitDatabase.cpp, absent from src): write each member bit to `!inv`. -/
def BitGroup.set_group (g : BitGroup) (tile : CRAMView) : CRAMView :=
  g.bits.foldl (fun t cb => t.write cb.frame cb.bit (!cb.inv)) tile

/-- Modelled from the spec: `BitGroup::clear_group` (body in
BitDatabase.cpp, absent from src): write each member bit to `inv`. -/
def BitGroup.clear_group (g : BitGroup) (tile : CRAMView) : CRAMView :=
  g.bits.foldl (fun t cb => t.write cb.frame cb.bit cb.inv) tile

/-- An arc is a configurable connection between two nodes, defined within
a mux (BitDatabase.hpp lines 94-102). -/
structure ArcData where
  source : String
  sink : String
  bits : BitGroup
deriving DecidableEq, Repr

/-- A mux specifies all the possible source node arcs driving a sink node
(BitDatabase.hpp lines 105-119). -/
structure MuxBits where
  sink : String
  arcs : List ArcData
deriving DecidableEq, Repr

/-- The error kinds surfaced by the database (spec section 7). -/
inductive TrellisError where
  | ambiguousDecode (sink : String) (sources : List String)
  | unknownMuxSource (sink : String) (driver : String)
  | unknownEnumOption (name : String) (value : String)
  | unknownEntity (name : String)
  | shapeMismatch (name : String) (expected : Nat) (actual : Nat)
deriving DecidableEq, Repr

deriving instance DecidableEq for Except

/-- Modelled from the spec: `MuxBits::get_driver` (body in
BitDatabase.cpp, absent from src). Coverage first accumulates the bits of
all arcs examined; then: exactly one matching non-empty-group arc wins;
if no non-empty-group arc matches, the first empty-group arc (the
default) wins, else the driver is unset; two or more matching non-empty
arcs are an ambiguous decode. The second component is the coverage
accumulator after the call (an out-parameter in the C++). -/
def MuxBits.get_driver (m : MuxBits) (tile : CRAMView) (coverage : BitSet) :
    Except TrellisError (Option String) × BitSet :=
  let cov := m.arcs.foldl (fun s a => a.bits.add_coverage s) coverage
  let matchedNonEmpty :=
    m.arcs.filter fun a => a.bits.matches tile && !a.bits.bits.isEmpty
  match matchedNonEmpty with
  | [] =>
    match m.arcs.find? (fun a => a.bits.bits.isEmpty) with
    | some a => (.ok (some a.source), cov)
    | none => (.ok none, cov)
  | [a] => (.ok (some a.source), cov)
  | a :: b :: rest =>
    (.error (.ambiguousDecode m.sink ((a :: b :: rest).map fun x => x.source)), cov)

/-- Modelled from the spec: `MuxBits::set_driver` (body in
BitDatabase.cpp, absent from src): locate the arc by source (unknown
source is fatal), clear every arc's group, then set the selected arc's
group. -/
def MuxBits.set_driver (m : MuxBits) (tile : CRAMView) (driver : String) :
    Except TrellisError CRAMView :=
  match m.arcs.find? (fun a => a.source == driver) with
  | none => .error (.unknownMuxSource m.sink driver)
  | some a =>
    .ok (a.bits.set_group (m.arcs.foldl (fun t arc => arc.bits.clear_group t) tile))

/-- A multibit (word) setting, such as LUT initialisation
(BitDatabase.hpp lines 132-147). -/
structure WordSettingBits where
  name : String
  bits : List BitGroup
  defval : List Bool
deriving DecidableEq, Repr

/-- Modelled from the spec: `WordSettingBits::get_value` (body in
BitDatabase.cpp, absent from src): decode `v[i] = bits[i].match(cram)`;
return unset iff the decoded vector equals `defval` exactly. Coverage
receives the union of all member groups regardless of outcome. -/
def WordSettingBits.get_value (w : WordSettingBits) (tile : CRAMView) (coverage : BitSet) :
    Option (List Bool) × BitSet :=
  let cov := w.bits.foldl (fun s g => g.add_coverage s) coverage
  let v := w.bits.map fun g => g.matches tile
  if v = w.defval then (none, cov) else (some v, cov)

/-- Modelled from the spec: `WordSettingBits::set_value` (body in
BitDatabase.cpp, absent from src): length mismatch is fatal; otherwise
set or clear each positional group according to the value bit. -/
def WordSettingBits.set_value (w : WordSettingBits) (tile : CRAMView) (value : List Bool) :
    Except TrellisError CRAMView :=
  if value.length = w.bits.length then
    .ok ((w.bits.zip value).foldl
      (fun t p => if p.2 then p.1.set_group t else p.1.clear_group t) tile)
  else
    .error (.shapeMismatch w.name w.bits.length value.length)

/-- An enumerated setting: named options, each with a bit group, plus an
optional default option (BitDatabase.hpp lines 155-170). The C++
`map<string, BitGroup>` is modelled as a key-sorted association list. -/
structure EnumSettingBits where
  name : String
  options : List (String × BitGroup)
  defval : Option String
deriving DecidableEq, Repr

/-- Modelled from the spec: `EnumSettingBits::get_value` (body in
BitDatabase.cpp, absent from src): exactly one matching non-empty option
wins; else the first empty-group option is the default; multi-match of
non-empty options is ambiguous. If `defval` is set and the decoded name
equals it, the result is unset. Coverage accumulates all options' bits. -/
def EnumSettingBits.get_value (e : EnumSettingBits) (tile : CRAMView) (coverage : BitSet) :
    Except TrellisError (Option String) × BitSet :=
  let cov := e.options.foldl (fun s o => o.2.add_coverage s) coverage
  let matchedNonEmpty :=
    e.options.filter fun o => o.2.matches tile && !o.2.bits.isEmpty
  match matchedNonEmpty with
  | [] =>
    match e.options.find? (fun o => o.2.bits.isEmpty) with
    | some o =>
      if e.defval = some o.1 then (.ok none, cov) else (.ok (some o.1), cov)
    | none => (.ok none, cov)
  | [o] =>
    if e.defval = some o.1 then (.ok none, cov) else (.ok (some o.1), cov)
  | o :: p :: rest =>
    (.error (.ambiguousDecode e.name ((o :: p :: rest).map fun x => x.1)), cov)

/-- Modelled from the spec: `EnumSettingBits::set_value` (body in
BitDatabase.cpp, absent from src): unknown option is fatal; otherwise
clear every option's group, then set the chosen one. -/
def EnumSettingBits.set_value (e : EnumSettingBits) (tile : CRAMView) (value : String) :
    Except TrellisError CRAMView :=
  match e.options.find? (fun o => o.1 == value) with
  | none => .error (.unknownEnumOption e.name value)
  | some o =>
    .ok (o.2.set_group (e.options.foldl (fun t op => op.2.clear_group t) tile))

/-- One mux-arc entry of a tile configuration (spec section 6,
`TileConfig`: `(sink, source)` pairs). -/
structure ConfigArc where
  sink : String
  source : String
deriving DecidableEq, Repr

/-- One word entry of a tile configuration. -/
structure ConfigWord where
  name : String
  value : List Bool
deriving DecidableEq, Repr

/-- One enum entry of a tile configuration. -/
structure ConfigEnum where
  name : String
  value : String
deriving DecidableEq, Repr

/-- A tile configuration: the caller-side structured representation of a
decoded tile (spec section 6). -/
structure TileConfig where
  carcs : List ConfigArc
  cwords : List ConfigWord
  cenums : List ConfigEnum
deriving DecidableEq, Repr

/-- The per-tile bit database (BitDatabase.hpp lines 181-229): three
keyed collections of muxes, words and enums. The C++ `std::map`s are
modelled as key-sorted association lists; iteration order of the model
lists is the C++ iteration order (ascending keys). -/
structure TileBitDatabase where
  muxes : List (String × MuxBits)
  words : List (String × WordSettingBits)
  enums : List (String × EnumSettingBits)
deriving DecidableEq, Repr

/-- Modelled from the spec: the mux phase of
`TileBitDatabase::config_to_tile_cram` (body in BitDatabase.cpp, absent
from src): for each arc entry look up the mux by sink (unknown names are
fatal) and apply `set_driver`. -/
def applyArcs (muxes : List (String × MuxBits)) :
    List ConfigArc → CRAMView → Except TrellisError CRAMView
  | [], tile => .ok tile
  | a :: rest, tile =>
    match muxes.lookup a.sink with
    | none => .error (.unknownEntity a.sink)
    | some m =>
      match m.set_driver tile a.source with
      | .error e => .error e
      | .ok t' => applyArcs muxes rest t'

/-- Modelled from the spec: the word phase of
`TileBitDatabase::config_to_tile_cram`. -/
def applyWords (words : List (String × WordSettingBits)) :
    List ConfigWord → CRAMView → Except TrellisError CRAMView
  | [], tile => .ok tile
  | wv :: rest, tile =>
    match words.lookup wv.name with
    | none => .error (.unknownEntity wv.name)
    | some w =>
      match w.set_value tile wv.value with
      | .error e => .error e
      | .ok t' => applyWords words rest t'

/-- Modelled from the spec: the enum phase of
`TileBitDatabase::config_to_tile_cram`. -/
def applyEnums (enums : List (String × EnumSettingBits)) :
    List ConfigEnum → CRAMView → Except TrellisError CRAMView
  | [], tile => .ok tile
  | ev :: rest, tile =>
    match enums.lookup ev.name with
    | none => .error (.unknownEntity ev.name)
    | some e =>
      match e.set_value tile ev.value with
      | .error err => .error err
      | .ok t' => applyEnums enums rest t'

/-- Modelled from the spec: `TileBitDatabase::config_to_tile_cram` (body
in BitDatabase.cpp, absent from src): apply the entries present in the
configuration to the CRAM view; unknown names are fatal. -/
def TileBitDatabase.config_to_tile_cram (db : TileBitDatabase) (cfg : TileConfig)
    (tile : CRAMView) : Except TrellisError CRAMView :=
  match applyArcs db.muxes cfg.carcs tile with
  | .error e => .error e
  | .ok t1 =>
    match applyWords db.words cfg.cwords t1 with
    | .error e => .error e
    | .ok t2 => applyEnums db.enums cfg.cenums t2

/-- Modelled from the spec: the mux walk of
`TileBitDatabase::tile_cram_to_config`: decode each mux in map (key)
order, emitting an arc entry whenever the decoded driver is not unset. -/
def decodeMuxes : List (String × MuxBits) → CRAMView → Except TrellisError (List ConfigArc)
  | [], _ => .ok []
  | (_, m) :: rest, tile =>
    match (m.get_driver tile ∅).1 with
    | .error e => .error e
    | .ok none => decodeMuxes rest tile
    | .ok (some src) =>
      match decodeMuxes rest tile with
      | .error e => .error e
      | .ok tail => .ok (⟨m.sink, src⟩ :: tail)

/-- Modelled from the spec: the word walk of
`TileBitDatabase::tile_cram_to_config`: decode each word in map order,
emitting an entry whenever the decoded value is not the default. -/
def decodeWords : List (String × WordSettingBits) → CRAMView → List ConfigWord
  | [], _ => []
  | (_, w) :: rest, tile =>
    match (w.get_value tile ∅).1 with
    | none => decodeWords rest tile
    | some v => ⟨w.name, v⟩ :: decodeWords rest tile

/-- Modelled from the spec: the enum walk of
`TileBitDatabase::tile_cram_to_config`. -/
def decodeEnums : List (String × EnumSettingBits) → CRAMView → Except TrellisError (List ConfigEnum)
  | [], _ => .ok []
  | (_, e) :: rest, tile =>
    match (e.get_value tile ∅).1 with
    | .error err => .error err
    | .ok none => decodeEnums rest tile
    | .ok (some v) =>
      match decodeEnums rest tile with
      | .error err => .error err
      | .ok tail => .ok (⟨e.name, v⟩ :: tail)

/-- Modelled from the spec: `TileBitDatabase::tile_cram_to_config` (body
in BitDatabase.cpp, absent from src): walk the database in key-sorted
order (muxes by sink, then words by name, then enums by name) and emit
only the entries whose decoded value is not the unset signal. -/
def TileBitDatabase.tile_cram_to_config (db : TileBitDatabase) (tile : CRAMView) :
    Except TrellisError TileConfig :=
  match decodeMuxes db.muxes tile with
  | .error e => .error e
  | .ok arcs =>
    match decodeEnums db.enums tile with
    | .error e => .error e
    | .ok enums => .ok ⟨arcs, decodeWords db.words tile, enums⟩

/-- The arc entry emitted for one mux during `tile_cram_to_config`:
present exactly when the decoded driver is not unset. -/
def muxDecodeEntry (tile : CRAMView) (p : String × MuxBits) : Option ConfigArc :=
  match (p.2.get_driver tile ∅).1 with
  | .ok (some src) => some ⟨p.2.sink, src⟩
  | _ => none

/-- The word entry emitted for one word setting during
`tile_cram_to_config`: present exactly when the decoded value is not the
default. -/
def wordDecodeEntry (tile : CRAMView) (p : String × WordSettingBits) : Option ConfigWord :=
  match (p.2.get_value tile ∅).1 with
  | some v => some ⟨p.2.name, v⟩
  | none => none

/-- The enum entry emitted for one enum setting during
`tile_cram_to_config`: present exactly when the decoded value is not
unset. -/
def enumDecodeEntry (tile : CRAMView) (p : String × EnumSettingBits) : Option ConfigEnum :=
  match (p.2.get_value tile ∅).1 with
  | .ok (some v) => some ⟨p.2.name, v⟩
  | _ => none

/-! ### Round-trip infrastructure: coordinates, pure writers, validity -/

/-- The `(frame, bit)` coordinates touched by a bit group. -/
def BitGroup.coords (g : BitGroup) : List (Int × Int) :=
  g.bits.map fun cb => (cb.frame, cb.bit)

/-- The coordinates touched by any arc of a mux. -/
def MuxBits.coords (m : MuxBits) : List (Int × Int) :=
  m.arcs.flatMap fun a => a.bits.coords

/-- The coordinates touched by any positional group of a word setting. -/
def WordSettingBits.coords (w : WordSettingBits) : List (Int × Int) :=
  w.bits.flatMap fun g => g.coords

/-- The coordinates touched by any option of an enum setting. -/
def EnumSettingBits.coords (e : EnumSettingBits) : List (Int × Int) :=
  e.options.flatMap fun o => o.2.coords

/-- The CRAM effect of a successful `set_driver` for a located arc:
clear every arc's group, then set the located arc's group. -/
def muxApply (m : MuxBits) (a : ArcData) (t : CRAMView) : CRAMView :=
  a.bits.set_group (m.arcs.foldl (fun tt arc => arc.bits.clear_group tt) t)

/-- The CRAM effect of a successful word `set_value`. -/
def wordApply (w : WordSettingBits) (v : List Bool) (t : CRAMView) : CRAMView :=
  (w.bits.zip v).foldl (fun tt p => if p.2 then p.1.set_group tt else p.1.clear_group tt) t

/-- The CRAM effect of a successful enum `set_value` for a located
option: clear every option's group, then set the located option's
group. -/
def enumApply (e : EnumSettingBits) (o : String × BitGroup) (t : CRAMView) : CRAMView :=
  o.2.set_group (e.options.foldl (fun tt op => op.2.clear_group tt) t)

/-- A CRAM transformer together with the coordinate region it is allowed
to touch. -/
structure LocalOp where
  op : CRAMView → CRAMView
  region : List (Int × Int)

/-- A local op leaves everything outside its region unchanged, and its
effect inside the region is independent of the incoming CRAM. -/
def LocalOp.Localized (o : LocalOp) : Prop :=
  (∀ t fr bt, (fr, bt) ∉ o.region → (o.op t).read fr bt = t.read fr bt) ∧
  (∀ t t' fr bt, (fr, bt) ∈ o.region → (o.op t).read fr bt = (o.op t').read fr bt)

/-- Apply a list of local ops left to right. -/
def applyOps (ops : List LocalOp) (t : CRAMView) : CRAMView :=
  ops.foldl (fun tt o => o.op tt) t

/-- The local op of one configured mux (identity if the driver is
unknown, which validity rules out). -/
def muxOpOf (q : ConfigArc × (String × MuxBits)) : LocalOp :=
  ⟨fun t =>
    match q.2.2.arcs.find? (fun x => x.source == q.1.source) with
    | some a => muxApply q.2.2 a t
    | none => t,
   q.2.2.coords⟩

/-- The local op of one configured word. -/
def wordOpOf (q : ConfigWord × (String × WordSettingBits)) : LocalOp :=
  ⟨fun t => wordApply q.2.2 q.1.value t, q.2.2.coords⟩

/-- The local op of one configured enum (identity if the option is
unknown, which validity rules out). -/
def enumOpOf (q : ConfigEnum × (String × EnumSettingBits)) : LocalOp :=
  ⟨fun t =>
    match q.2.2.options.find? (fun o => o.1 == q.1.value) with
    | some o => enumApply q.2.2 o t
    | none => t,
   q.2.2.coords⟩

/-- All local ops performed by `config_to_tile_cram` for a complete
configuration, in application order. -/
def allOps (db : TileBitDatabase) (c : TileConfig) : List LocalOp :=
  (c.carcs.zip db.muxes).map muxOpOf ++ (c.cwords.zip db.words).map wordOpOf ++
    (c.cenums.zip db.enums).map enumOpOf

/-- A bit group with no inverted bits. -/
def noInv (g : BitGroup) : Prop :=
  ∀ cb ∈ g.bits, cb.inv = false

/-- Two arcs of one mux are compatible when their non-empty coordinate
sets are incomparable under inclusion and they are not both empty
(at most one default arc, and no arc pattern contained in another). -/
def arcsCompatible (a1 a2 : ArcData) : Prop :=
  (a1.bits.bits ≠ [] → a2.bits.bits ≠ [] →
    ¬(∀ p ∈ a1.bits.coords, p ∈ a2.bits.coords) ∧
    ¬(∀ p ∈ a2.bits.coords, p ∈ a1.bits.coords)) ∧
  ¬(a1.bits.bits = [] ∧ a2.bits.bits = [])

/-- Well-formedness of a mux for unambiguous round-trips. -/
def MuxWF (m : MuxBits) : Prop :=
  (∀ a ∈ m.arcs, noInv a.bits) ∧ m.arcs.Pairwise arcsCompatible

/-- Two options of one enum are compatible, as for mux arcs. -/
def optsCompatible (o1 o2 : String × BitGroup) : Prop :=
  (o1.2.bits ≠ [] → o2.2.bits ≠ [] →
    ¬(∀ p ∈ o1.2.coords, p ∈ o2.2.coords) ∧
    ¬(∀ p ∈ o2.2.coords, p ∈ o1.2.coords)) ∧
  ¬(o1.2.bits = [] ∧ o2.2.bits = [])

/-- Well-formedness of an enum for unambiguous round-trips. -/
def EnumWF (e : EnumSettingBits) : Prop :=
  (∀ o ∈ e.options, noInv o.2) ∧ e.options.Pairwise optsCompatible

/-- Well-formedness of a word setting: no inverted bits, no empty
positional group, and pairwise disjoint positional groups. -/
def WordWF (w : WordSettingBits) : Prop :=
  (∀ g ∈ w.bits, noInv g) ∧ (∀ g ∈ w.bits, g.bits ≠ []) ∧
  w.bits.Pairwise fun g1 g2 => ∀ p ∈ g1.coords, p ∉ g2.coords

/-- The coordinate regions of all database entities, in walk order. -/
def regions (db : TileBitDatabase) : List (List (Int × Int)) :=
  db.muxes.map (fun p => p.2.coords) ++ db.words.map (fun p => p.2.coords) ++
    db.enums.map (fun p => p.2.coords)

/-- Well-formedness of a tile database for round-trips: keys match the
entities they index and are duplicate-free, every entity is well formed,
and distinct entities touch disjoint coordinate regions. -/
def TileDBWF (db : TileBitDatabase) : Prop :=
  (∀ p ∈ db.muxes, p.2.sink = p.1 ∧ MuxWF p.2) ∧
  (∀ p ∈ db.words, p.2.name = p.1 ∧ WordWF p.2) ∧
  (∀ p ∈ db.enums, p.2.name = p.1 ∧ EnumWF p.2) ∧
  (db.muxes.map Prod.fst).Nodup ∧
  (db.words.map Prod.fst).Nodup ∧
  (db.enums.map Prod.fst).Nodup ∧
  (regions db).Pairwise fun r1 r2 => ∀ p ∈ r1, p ∉ r2

/-- Validity of a tile configuration against a database: it assigns
every mux, word and enum of the database in database order, naming an
existing arc source or enum option and a word value of the declared
width. -/
def ValidConfig (db : TileBitDatabase) (c : TileConfig) : Prop :=
  (c.carcs.length = db.muxes.length ∧
    ∀ q ∈ c.carcs.zip db.muxes,
      q.1.sink = q.2.1 ∧ (q.2.2.arcs.find? fun a => a.source == q.1.source).isSome) ∧
  (c.cwords.length = db.words.length ∧
    ∀ q ∈ c.cwords.zip db.words,
      q.1.name = q.2.1 ∧ q.1.value.length = q.2.2.bits.length) ∧
  (c.cenums.length = db.enums.length ∧
    ∀ q ∈ c.cenums.zip db.enums,
      q.1.name = q.2.1 ∧ (q.2.2.options.find? fun o => o.1 == q.1.value).isSome)

instance (g : BitGroup) : Decidable (noInv g) := by
  unfold noInv
  infer_instance

instance (a1 a2 : ArcData) : Decidable (arcsCompatible a1 a2) := by
  unfold arcsCompatible
  infer_instance

instance (m : MuxBits) : Decidable (MuxWF m) := by
  unfold MuxWF
  infer_instance

instance (o1 o2 : String × BitGroup) : Decidable (optsCompatible o1 o2) := by
  unfold optsCompatible
  infer_instance

instance (e : EnumSettingBits) : Decidable (EnumWF e) := by
  unfold EnumWF
  infer_instance

instance (w : WordSettingBits) : Decidable (WordWF w) := by
  unfold WordWF
  infer_instance

instance (db : TileBitDatabase) : Decidable (TileDBWF db) := by
  unfold TileDBWF
  infer_instance

instance (db : TileBitDatabase) (c : TileConfig) : Decidable (ValidConfig db c) := by
  unfold ValidConfig
  infer_instance

/-- Drop from a configuration the entries whose value equals their
declared default: word entries equal to `defval`, and enum entries whose
enum declares that value as its `defval`. -/
def stripDefaults (db : TileBitDatabase) (c : TileConfig) : TileConfig :=
  ⟨c.carcs,
   c.cwords.filter fun wv =>
     match db.words.lookup wv.name with
     | some w => decide (wv.value ≠ w.defval)
     | none => true,
   c.cenums.filter fun ev =>
     match db.enums.lookup ev.name with
     | some e => decide (e.defval ≠ some ev.value)
     | none => true⟩

/-- Positional form of the word filter of `stripDefaults`: keep each
word entry unless its value equals the paired word's default. -/
def stripWords : List ConfigWord → List (String × WordSettingBits) → List ConfigWord
  | wv :: cs, p :: ps =>
    if wv.value = p.2.defval then stripWords cs ps else wv :: stripWords cs ps
  | _, _ => []

/-- Positional form of the enum filter of `stripDefaults`: keep each
enum entry unless the paired enum declares its value as the default. -/
def stripEnums : List ConfigEnum → List (String × EnumSettingBits) → List ConfigEnum
  | ev :: cs, p :: ps =>
    if p.2.defval = some ev.value then stripEnums cs ps else ev :: stripEnums cs ps
  | _, _ => []

/-! ### Concrete fixtures used by witnesses -/

/-- A concrete non-inverted bit at frame 0, bit 0. -/
def cb00 : ConfigBit := ⟨0, 0, false⟩

/-- A concrete non-inverted bit at frame 0, bit 1. -/
def cb01 : ConfigBit := ⟨0, 1, false⟩

/-- Fixture arc selecting `SRC_X` via bit (0,0) (spec section 8,
scenario 1). -/
def arcX : ArcData := ⟨"SRC_X", "SINK_A", ⟨[cb00]⟩⟩

/-- Fixture arc selecting `SRC_Y` via bit (0,1). -/
def arcY : ArcData := ⟨"SRC_Y", "SINK_A", ⟨[cb01]⟩⟩

/-- Fixture default arc with an empty bit group. -/
def arcD : ArcData := ⟨"DEFAULT", "SINK_A", ⟨[]⟩⟩

/-- Fixture mux (spec section 8, scenario 1). -/
def muxW : MuxBits := ⟨"SINK_A", [arcX, arcD]⟩

/-- Fixture mux with two one-hot arcs. -/
def muxW2 : MuxBits := ⟨"SINK_A", [arcX, arcY]⟩

/-- A CRAM with exactly bit (0,0) set. -/
def cram00 : CRAMView := CRAMView.zero.write 0 0 true

/-- A CRAM with bits (0,0) and (0,1) set. -/
def cram0001 : CRAMView := (CRAMView.zero.write 0 0 true).write 0 1 true

/-- Fixture word setting with two groups and an all-false default. -/
def wordW : WordSettingBits := ⟨"LUT", [⟨[cb00]⟩, ⟨[cb01]⟩], [false, false]⟩

/-- Fixture enum with two non-empty options and no default. -/
def enumW : EnumSettingBits := ⟨"IO_TYPE", [("A", ⟨[cb00]⟩), ("B", ⟨[cb01]⟩)], none⟩

/-- Fixture database for the decode-order witness. -/
def exDB : TileBitDatabase :=
  ⟨[("SINK_A", muxW)], [("LUT", wordW)], [("IO_TYPE", enumW)]⟩

/-- Fixture decoded configuration of `exDB` on `cram00`. -/
def exCfg : TileConfig :=
  ⟨[⟨"SINK_A", "SRC_X"⟩], [⟨"LUT", [true, false]⟩], [⟨"IO_TYPE", "A"⟩]⟩

/-- Fixture database with coordinate-disjoint entities for the
round-trip witness: one mux on frame 0, one word on frame 1, one enum on
frame 2. -/
def rtDB : TileBitDatabase :=
  ⟨[("SINK_A", muxW)],
   [("LUT", ⟨"LUT", [⟨[⟨1, 0, false⟩]⟩, ⟨[⟨1, 1, false⟩]⟩], [false, false]⟩)],
   [("IO_TYPE", ⟨"IO_TYPE", [("A", ⟨[⟨2, 0, false⟩]⟩), ("B", ⟨[⟨2, 1, false⟩]⟩)],
     some "A"⟩)]⟩

/-- Fixture configuration assigning every entity of `rtDB`; the enum is
set to its declared default. -/
def rtCfg : TileConfig :=
  ⟨[⟨"SINK_A", "SRC_X"⟩], [⟨"LUT", [true, false]⟩], [⟨"IO_TYPE", "A"⟩]⟩

/-! ### Claim theorems -/

/-- C2: `BitGroup::match(cram)` is true iff every member bit reads
differently from its inversion flag; an empty group matches every CRAM
state, and `set_group`/`clear_group` on an empty group leave the CRAM
unchanged. -/
theorem bitgroup_match_spec (g : BitGroup) (t : CRAMView) :
    (g.matches t = true ↔ ∀ cb ∈ g.bits, t.read cb.frame cb.bit ≠ cb.inv) ∧
    (g.bits = [] →
      g.matches t = true ∧ g.set_group t = t ∧ g.clear_group t = t) := by
  constructor
  · simp [BitGroup.matches, List.all_eq_true, bne_iff_ne]
  · intro h
    rcases g with ⟨bs⟩
    simp only at h
    subst h
    exact ⟨rfl, rfl, rfl⟩

/-- Witness for C2 at the empty group. -/
theorem bitgroup_match_spec_witness :
    (BitGroup.mk []).matches CRAMView.zero = true ∧
    (BitGroup.mk []).set_group CRAMView.zero = CRAMView.zero ∧
    (BitGroup.mk []).clear_group CRAMView.zero = CRAMView.zero :=
  (bitgroup_match_spec ⟨[]⟩ CRAMView.zero).2 rfl

/-- C5: `MuxBits::set_driver` fails with an unknown-mux-source error when
no arc has the requested source (producing no new CRAM, so the tile is
unchanged); otherwise it clears every arc's bit group and then sets the
selected arc's group, so selecting a driver with an empty group leaves
the fully cleared state. -/
theorem mux_set_driver_spec (m : MuxBits) (t : CRAMView) (d : String) :
    ((∀ a ∈ m.arcs, a.source ≠ d) →
      m.set_driver t d = .error (.unknownMuxSource m.sink d)) ∧
    (∀ a, m.arcs.find? (fun x => x.source == d) = some a →
      m.set_driver t d =
        .ok (a.bits.set_group (m.arcs.foldl (fun tt x => x.bits.clear_group tt) t)) ∧
      (a.bits.bits = [] →
        m.set_driver t d =
          .ok (m.arcs.foldl (fun tt x => x.bits.clear_group tt) t))) := by
  constructor
  · intro h
    have hnone : m.arcs.find? (fun x => x.source == d) = none := by
      rw [List.find?_eq_none]
      intro x hx
      simpa using h x hx
    simp only [MuxBits.set_driver, hnone]
  · intro a ha
    refine ⟨by simp only [MuxBits.set_driver, ha], ?_⟩
    intro hemp
    simp only [MuxBits.set_driver, ha]
    rcases a with ⟨src, snk, ⟨bs⟩⟩
    simp only at hemp
    subst hemp
    rfl

/-- Witness for C5: the fixture mux rejects an unknown driver and the
empty default arc leaves the cleared state. -/
theorem mux_set_driver_spec_witness :
    muxW.set_driver cram00 "NOPE" = .error (.unknownMuxSource "SINK_A" "NOPE") ∧
    muxW.set_driver cram00 "DEFAULT" =
      .ok (muxW.arcs.foldl (fun tt x => x.bits.clear_group tt) cram00) := by
  constructor
  · exact (mux_set_driver_spec muxW cram00 "NOPE").1 (by decide)
  · exact ((mux_set_driver_spec muxW cram00 "DEFAULT").2 arcD (by decide)).2 rfl

/-- C6: `WordSettingBits::get_value` decodes `v[i] = bits[i].match(cram)`
and returns the unset signal exactly when the decoded vector equals the
declared default; otherwise it returns the decoded vector. -/
theorem word_get_value_spec (w : WordSettingBits) (t : CRAMView) (cov : BitSet) :
    ((w.get_value t cov).1 = none ↔ (w.bits.map fun g => g.matches t) = w.defval) ∧
    ((w.bits.map fun g => g.matches t) ≠ w.defval →
      (w.get_value t cov).1 = some (w.bits.map fun g => g.matches t)) := by
  constructor
  · simp only [WordSettingBits.get_value]
    split
    · simp_all
    · simp_all
  · intro h
    simp only [WordSettingBits.get_value]
    split
    · simp_all
    · simp

/-- Witness for C6: on the fixture word, a CRAM with bit (0,0) set
decodes to `[true, false]`, which differs from the default. -/
theorem word_get_value_spec_witness :
    (wordW.get_value cram00 ∅).1 = some [true, false] :=
  (word_get_value_spec wordW cram00 ∅).2 (by decide)

/-- C3: `MuxBits::get_driver` returns the source of the unique matching
non-empty-group arc when exactly one such arc matches; when no
non-empty-group arc matches it returns the source of the first
empty-group arc if one exists and the unset signal otherwise. -/
theorem mux_get_driver_spec (m : MuxBits) (t : CRAMView) (cov : BitSet) :
    (∀ a, m.arcs.filter (fun x => x.bits.matches t && !x.bits.bits.isEmpty) = [a] →
      (m.get_driver t cov).1 = .ok (some a.source)) ∧
    (m.arcs.filter (fun x => x.bits.matches t && !x.bits.bits.isEmpty) = [] →
      (m.get_driver t cov).1 =
        .ok ((m.arcs.find? fun x => x.bits.bits.isEmpty).map fun x => x.source)) := by
  constructor
  · intro a ha
    simp only [MuxBits.get_driver, ha]
  · intro h0
    simp only [MuxBits.get_driver, h0]
    cases hf : m.arcs.find? (fun x => x.bits.bits.isEmpty) <;> simp

/-- Witness for C3: with bit (0,0) set the fixture mux decodes to
`SRC_X`; on the all-zero CRAM it decodes to the empty-group default. -/
theorem mux_get_driver_spec_witness :
    (muxW.get_driver cram00 ∅).1 = .ok (some "SRC_X") ∧
    (muxW.get_driver CRAMView.zero ∅).1 = .ok (some "DEFAULT") := by
  constructor
  · exact (mux_get_driver_spec muxW cram00 ∅).1 arcX (by decide)
  · have h := (mux_get_driver_spec muxW CRAMView.zero ∅).2 (by decide)
    rw [h]
    decide

/-- C4: when two or more arcs with non-empty bit groups match, the mux
decode fails with an ambiguous-decode diagnostic carrying the sink and
all matching sources rather than returning any of them; the enum decode
fails the same way when several non-empty options match. -/
theorem ambiguous_decode_spec (m : MuxBits) (e : EnumSettingBits)
    (t : CRAMView) (cov : BitSet) :
    (∀ a b rest,
      m.arcs.filter (fun x => x.bits.matches t && !x.bits.bits.isEmpty) = a :: b :: rest →
      (m.get_driver t cov).1 =
        .error (.ambiguousDecode m.sink ((a :: b :: rest).map fun x => x.source))) ∧
    (∀ o p rest,
      e.options.filter (fun x => x.2.matches t && !x.2.bits.isEmpty) = o :: p :: rest →
      (e.get_value t cov).1 =
        .error (.ambiguousDecode e.name ((o :: p :: rest).map fun x => x.1))) := by
  constructor
  · intro a b rest h
    simp only [MuxBits.get_driver, h]
  · intro o p rest h
    simp only [EnumSettingBits.get_value, h]

/-- Witness for C4: with bits (0,0) and (0,1) both set, the two-arc
fixture mux and the two-option fixture enum both fail ambiguously. -/
theorem ambiguous_decode_spec_witness :
    (muxW2.get_driver cram0001 ∅).1 =
      .error (.ambiguousDecode "SINK_A" ["SRC_X", "SRC_Y"]) ∧
    (enumW.get_value cram0001 ∅).1 =
      .error (.ambiguousDecode "IO_TYPE" ["A", "B"]) := by
  constructor
  · exact (ambiguous_decode_spec muxW2 enumW cram0001 ∅).1 arcX arcY [] (by decide)
  · exact (ambiguous_decode_spec muxW2 enumW cram0001 ∅).2
      ("A", ⟨[cb00]⟩) ("B", ⟨[cb01]⟩) [] (by decide)

/-- C8: an enum whose `defval` is unset never successfully decodes to the
unset signal once at least one option's bit group matches the CRAM. -/
theorem enum_no_default_spec (e : EnumSettingBits) (t : CRAMView) (cov : BitSet)
    (hdef : e.defval = none)
    (hmatch : ∃ o ∈ e.options, o.2.matches t = true) :
    ∀ r, (e.get_value t cov).1 = .ok r → r.isSome := by
  intro r hr
  simp only [EnumSettingBits.get_value] at hr
  rcases hfil : e.options.filter (fun o => o.2.matches t && !o.2.bits.isEmpty) with
    _ | ⟨o1, rest⟩
  · rw [hfil] at hr
    rcases hfind : e.options.find? (fun o => o.2.bits.isEmpty) with _ | o2
    · exfalso
      obtain ⟨o, ho, homatch⟩ := hmatch
      by_cases hemp : o.2.bits.isEmpty
      · have := List.find?_eq_none.mp hfind o ho
        simp [hemp] at this
      · have hmem : o ∈ e.options.filter (fun o => o.2.matches t && !o.2.bits.isEmpty) :=
          List.mem_filter.mpr ⟨ho, by simp [homatch, hemp]⟩
        rw [hfil] at hmem
        simp at hmem
    · rw [hfind, hdef] at hr
      simp only [reduceCtorEq, reduceIte] at hr
      cases hr
      rfl
  · rcases rest with _ | ⟨o2, rest2⟩
    · rw [hfil, hdef] at hr
      simp only [reduceCtorEq, reduceIte] at hr
      cases hr
      rfl
    · rw [hfil] at hr
      cases hr

/-- Witness for C8: the default-less fixture enum on a CRAM with bit
(0,0) set decodes to a present option name. -/
theorem enum_no_default_spec_witness :
    ((enumW.get_value cram00 ∅).1 = .ok (some "A")) ∧
    ∀ r, (enumW.get_value cram00 ∅).1 = .ok r → r.isSome := by
  refine ⟨by decide, ?_⟩
  exact enum_no_default_spec enumW cram00 ∅ rfl ⟨("A", ⟨[cb00]⟩), by decide, by decide⟩

/-- Membership in a left fold of `add_coverage` calls: the result holds
exactly the initial accumulator plus every bit of every group folded
over. -/
theorem mem_foldl_add_coverage {α : Type} (f : α → BitGroup) (l : List α)
    (cov : BitSet) (cb : ConfigBit) :
    (cb ∈ l.foldl (fun s x => (f x).add_coverage s) cov) ↔
      cb ∈ cov ∨ ∃ x ∈ l, cb ∈ (f x).bits := by
  induction l generalizing cov with
  | nil => simp
  | cons x l ih =>
    rw [List.foldl_cons, ih]
    simp only [BitGroup.add_coverage, Finset.mem_union, List.mem_toFinset, List.mem_cons]
    constructor
    · rintro ((h | h) | ⟨y, hy, hcb⟩)
      · exact Or.inl h
      · exact Or.inr ⟨x, Or.inl rfl, h⟩
      · exact Or.inr ⟨y, Or.inr hy, hcb⟩
    · rintro (h | ⟨y, (rfl | hy), hcb⟩)
      · exact Or.inl (Or.inl h)
      · exact Or.inl (Or.inr hcb)
      · exact Or.inr ⟨y, hy, hcb⟩

/-- The coverage component returned by `MuxBits::get_driver` is the arc
fold of `add_coverage`, in every outcome branch. -/
theorem get_driver_coverage (m : MuxBits) (t : CRAMView) (cov : BitSet) :
    (m.get_driver t cov).2 = m.arcs.foldl (fun s a => a.bits.add_coverage s) cov := by
  simp only [MuxBits.get_driver]
  split
  · split <;> rfl
  · rfl
  · rfl

/-- The coverage component returned by `EnumSettingBits::get_value` is
the option fold of `add_coverage`, in every outcome branch. -/
theorem enum_get_value_coverage (e : EnumSettingBits) (t : CRAMView) (cov : BitSet) :
    (e.get_value t cov).2 = e.options.foldl (fun s o => o.2.add_coverage s) cov := by
  simp only [EnumSettingBits.get_value]
  split
  · split
    · split <;> rfl
    · rfl
  · split <;> rfl
  · rfl

/-- C9: every decode that takes a coverage accumulator only grows it,
regardless of outcome: the mux decode adds exactly the bits of all arcs
examined, the word decode adds the union of all member groups, and the
enum decode adds the bits of all options. -/
theorem coverage_monotone_spec (m : MuxBits) (w : WordSettingBits)
    (e : EnumSettingBits) (t : CRAMView) (cov : BitSet) :
    (cov ⊆ (m.get_driver t cov).2 ∧
      ∀ cb, cb ∈ (m.get_driver t cov).2 ↔ cb ∈ cov ∨ ∃ a ∈ m.arcs, cb ∈ a.bits.bits) ∧
    (cov ⊆ (w.get_value t cov).2 ∧
      ∀ cb, cb ∈ (w.get_value t cov).2 ↔ cb ∈ cov ∨ ∃ g ∈ w.bits, cb ∈ g.bits) ∧
    (cov ⊆ (e.get_value t cov).2 ∧
      ∀ cb, cb ∈ (e.get_value t cov).2 ↔ cb ∈ cov ∨ ∃ o ∈ e.options, cb ∈ o.2.bits) := by
  have hm : ∀ cb, cb ∈ (m.get_driver t cov).2 ↔
      cb ∈ cov ∨ ∃ a ∈ m.arcs, cb ∈ a.bits.bits := by
    intro cb
    rw [get_driver_coverage]
    exact mem_foldl_add_coverage (fun a => a.bits) m.arcs cov cb
  have hw : ∀ cb, cb ∈ (w.get_value t cov).2 ↔
      cb ∈ cov ∨ ∃ g ∈ w.bits, cb ∈ g.bits := by
    intro cb
    have hcov : (w.get_value t cov).2 =
        w.bits.foldl (fun s g => g.add_coverage s) cov := by
      simp only [WordSettingBits.get_value]
      split <;> rfl
    rw [hcov]
    exact mem_foldl_add_coverage (fun g => g) w.bits cov cb
  have he : ∀ cb, cb ∈ (e.get_value t cov).2 ↔
      cb ∈ cov ∨ ∃ o ∈ e.options, cb ∈ o.2.bits := by
    intro cb
    rw [enum_get_value_coverage]
    exact mem_foldl_add_coverage (fun o => o.2) e.options cov cb
  refine ⟨⟨?_, hm⟩, ⟨?_, hw⟩, ⟨?_, he⟩⟩
  · intro cb hcb
    exact (hm cb).mpr (Or.inl hcb)
  · intro cb hcb
    exact (hw cb).mpr (Or.inl hcb)
  · intro cb hcb
    exact (he cb).mpr (Or.inl hcb)

/-- A successful mux walk is the filterMap of per-mux decode entries. -/
theorem decodeMuxes_ok_eq (t : CRAMView) (l : List (String × MuxBits))
    (res : List ConfigArc) (h : decodeMuxes l t = .ok res) :
    res = l.filterMap (muxDecodeEntry t) := by
  induction l generalizing res with
  | nil =>
    simp only [decodeMuxes] at h
    cases h
    rfl
  | cons p l ih =>
    rcases p with ⟨k, m⟩
    simp only [decodeMuxes] at h
    rw [List.filterMap_cons]
    cases hd : (m.get_driver t ∅).1 with
    | error e =>
      rw [hd] at h
      simp at h
    | ok r =>
      rcases r with _ | src
      · have he : muxDecodeEntry t (k, m) = none := by
          simp [muxDecodeEntry, hd]
        rw [he]
        simp only [hd] at h
        exact ih res h
      · have he : muxDecodeEntry t (k, m) = some ⟨m.sink, src⟩ := by
          simp [muxDecodeEntry, hd]
        rw [he]
        rw [hd] at h
        cases ht : decodeMuxes l t with
        | error e =>
          rw [ht] at h
          simp at h
        | ok tail =>
          rw [ht] at h
          cases h
          rw [ih tail ht]

/-- The word walk is the filterMap of per-word decode entries. -/
theorem decodeWords_eq (t : CRAMView) (l : List (String × WordSettingBits)) :
    decodeWords l t = l.filterMap (wordDecodeEntry t) := by
  induction l with
  | nil => rfl
  | cons p l ih =>
    rcases p with ⟨k, w⟩
    simp only [decodeWords]
    rw [List.filterMap_cons]
    cases hd : (w.get_value t ∅).1 with
    | none =>
      have he : wordDecodeEntry t (k, w) = none := by
        simp [wordDecodeEntry, hd]
      rw [he, ih]
    | some v =>
      have he : wordDecodeEntry t (k, w) = some ⟨w.name, v⟩ := by
        simp [wordDecodeEntry, hd]
      rw [he, ih]

/-- A successful enum walk is the filterMap of per-enum decode entries. -/
theorem decodeEnums_ok_eq (t : CRAMView) (l : List (String × EnumSettingBits))
    (res : List ConfigEnum) (h : decodeEnums l t = .ok res) :
    res = l.filterMap (enumDecodeEntry t) := by
  induction l generalizing res with
  | nil =>
    simp only [decodeEnums] at h
    cases h
    rfl
  | cons p l ih =>
    rcases p with ⟨k, e⟩
    simp only [decodeEnums] at h
    rw [List.filterMap_cons]
    cases hd : (e.get_value t ∅).1 with
    | error err =>
      rw [hd] at h
      simp at h
    | ok r =>
      rcases r with _ | v
      · have he : enumDecodeEntry t (k, e) = none := by
          simp [enumDecodeEntry, hd]
        rw [he]
        simp only [hd] at h
        exact ih res h
      · have he : enumDecodeEntry t (k, e) = some ⟨e.name, v⟩ := by
          simp [enumDecodeEntry, hd]
        rw [he]
        rw [hd] at h
        cases ht : decodeEnums l t with
        | error err =>
          rw [ht] at h
          simp at h
        | ok tail =>
          rw [ht] at h
          cases h
          rw [ih tail ht]

/-- Keys of a filterMap whose entries carry their source key form a
sublist of the input keys. -/
theorem filterMap_key_sublist {σ β : Type} (f : String × σ → Option β)
    (key : β → String) (l : List (String × σ))
    (hk : ∀ p ∈ l, ∀ b, f p = some b → key b = p.1) :
    ((l.filterMap f).map key).Sublist (l.map Prod.fst) := by
  induction l with
  | nil => simp
  | cons p l ih =>
    rw [List.filterMap_cons]
    cases hd : f p with
    | none =>
      rw [List.map_cons]
      exact (ih fun q hq b hb => hk q (List.mem_cons_of_mem p hq) b hb).cons _
    | some b =>
      rw [List.map_cons, List.map_cons]
      have hkey : key b = p.1 := hk p (List.mem_cons_self p l) b hd
      rw [hkey]
      exact (ih fun q hq c hc => hk q (List.mem_cons_of_mem p hq) c hc).cons₂ _

/-- The sink carried by an emitted mux entry is the mux's own sink. -/
theorem muxDecodeEntry_sink (t : CRAMView) (p : String × MuxBits) (a : ConfigArc)
    (h : muxDecodeEntry t p = some a) : a.sink = p.2.sink := by
  simp only [muxDecodeEntry] at h
  split at h
  · cases h
    rfl
  · cases h

/-- The name carried by an emitted word entry is the word's own name. -/
theorem wordDecodeEntry_name (t : CRAMView) (p : String × WordSettingBits)
    (wv : ConfigWord) (h : wordDecodeEntry t p = some wv) : wv.name = p.2.name := by
  simp only [wordDecodeEntry] at h
  split at h
  · cases h
    rfl
  · cases h

/-- The name carried by an emitted enum entry is the enum's own name. -/
theorem enumDecodeEntry_name (t : CRAMView) (p : String × EnumSettingBits)
    (ev : ConfigEnum) (h : enumDecodeEntry t p = some ev) : ev.name = p.2.name := by
  simp only [enumDecodeEntry] at h
  split at h
  · cases h
    rfl
  · cases h

/-- C7: a successful `tile_cram_to_config` walks muxes, words and enums
in ascending key order, emitting exactly the entries whose decoded value
is not the unset signal; consequently each emitted section is itself
sorted by sink or name. -/
theorem tile_cram_to_config_spec (db : TileBitDatabase) (t : CRAMView) (cfg : TileConfig)
    (hmk : ∀ p ∈ db.muxes, p.2.sink = p.1)
    (hwk : ∀ p ∈ db.words, p.2.name = p.1)
    (hek : ∀ p ∈ db.enums, p.2.name = p.1)
    (hms : (db.muxes.map Prod.fst).Pairwise (· < ·))
    (hws : (db.words.map Prod.fst).Pairwise (· < ·))
    (hes : (db.enums.map Prod.fst).Pairwise (· < ·))
    (h : db.tile_cram_to_config t = .ok cfg) :
    cfg.carcs = db.muxes.filterMap (muxDecodeEntry t) ∧
    cfg.cwords = db.words.filterMap (wordDecodeEntry t) ∧
    cfg.cenums = db.enums.filterMap (enumDecodeEntry t) ∧
    ((cfg.carcs.map fun a => a.sink).Pairwise (· < ·)) ∧
    ((cfg.cwords.map fun wv => wv.name).Pairwise (· < ·)) ∧
    ((cfg.cenums.map fun ev => ev.name).Pairwise (· < ·)) := by
  rw [TileBitDatabase.tile_cram_to_config] at h
  cases hma : decodeMuxes db.muxes t with
  | error e =>
    rw [hma] at h
    simp at h
  | ok arcs =>
    rw [hma] at h
    cases hen : decodeEnums db.enums t with
    | error e =>
      rw [hen] at h
      simp at h
    | ok enums =>
      rw [hen] at h
      cases h
      have harcs := decodeMuxes_ok_eq t db.muxes arcs hma
      have henums := decodeEnums_ok_eq t db.enums enums hen
      have hwords := decodeWords_eq t db.words
      subst harcs
      subst henums
      refine ⟨rfl, hwords, rfl, ?_, ?_, ?_⟩
      · exact List.Pairwise.sublist (filterMap_key_sublist (muxDecodeEntry t) (fun a => a.sink)
          db.muxes fun p hp b hb => (muxDecodeEntry_sink t p b hb).trans (hmk p hp)) hms
      · rw [hwords]
        exact List.Pairwise.sublist (filterMap_key_sublist (wordDecodeEntry t) (fun wv => wv.name)
          db.words fun p hp b hb => (wordDecodeEntry_name t p b hb).trans (hwk p hp)) hws
      · exact List.Pairwise.sublist (filterMap_key_sublist (enumDecodeEntry t) (fun ev => ev.name)
          db.enums fun p hp b hb => (enumDecodeEntry_name t p b hb).trans (hek p hp)) hes

/-- Witness for C7 on the one-entry-per-section fixture database. -/
theorem tile_cram_to_config_spec_witness :
    exCfg.carcs = exDB.muxes.filterMap (muxDecodeEntry cram00) ∧
    exCfg.cwords = exDB.words.filterMap (wordDecodeEntry cram00) ∧
    exCfg.cenums = exDB.enums.filterMap (enumDecodeEntry cram00) ∧
    ((exCfg.carcs.map fun a => a.sink).Pairwise (· < ·)) ∧
    ((exCfg.cwords.map fun wv => wv.name).Pairwise (· < ·)) ∧
    ((exCfg.cenums.map fun ev => ev.name).Pairwise (· < ·)) :=
  tile_cram_to_config_spec exDB cram00 exCfg (by decide) (by decide) (by decide)
    (by decide) (by decide) (by decide) (by decide)

/-- Every character emitted by `natDigits` is a decimal digit
character. -/
theorem natDigits_digits (n : Nat) :
    ∀ c ∈ natDigits n, ∃ d, d < 10 ∧ c = digitChar d := by
  induction n using natDigits.induct with
  | case1 x hx =>
    rw [natDigits, dif_pos hx]
    intro c hc
    simp at hc
    exact ⟨x, hx, hc⟩
  | case2 x hx ih =>
    rw [natDigits, dif_neg hx]
    intro c hc
    rcases List.mem_append.mp hc with h | h
    · exact ih c h
    · simp at h
      exact ⟨x % 10, Nat.mod_lt _ (by omega), h⟩

/-- `parseNat` distributes over list append. -/
theorem parseNat_append (l1 l2 : List Char) (acc : Nat) :
    parseNat (l1 ++ l2) acc = parseNat l2 (parseNat l1 acc) := by
  induction l1 generalizing acc with
  | nil => rfl
  | cons c l ih => simp [parseNat, ih]

/-- The code of a digit character. -/
theorem digitChar_toNat (d : Nat) (h : d < 10) : (digitChar d).toNat = 48 + d := by
  interval_cases d <;> rfl

/-- A digit character is never the separator `B`. -/
theorem digitChar_bne_B (d : Nat) (h : d < 10) : (digitChar d != 'B') = true := by
  interval_cases d <;> decide

/-- Parsing the decimal digits of `n` from accumulator `acc` yields
`acc` shifted past the digits plus `n`. -/
theorem parseNat_natDigits_acc (n acc : Nat) :
    parseNat (natDigits n) acc = acc * 10 ^ (natDigits n).length + n := by
  induction n using natDigits.induct generalizing acc with
  | case1 x hx =>
    rw [natDigits, dif_pos hx]
    simp [parseNat, digitChar_toNat x hx]
  | case2 x hx ih =>
    rw [natDigits, dif_neg hx]
    rw [parseNat_append, ih]
    simp [parseNat, digitChar_toNat (x % 10) (Nat.mod_lt _ (by omega))]
    rw [pow_succ]
    have hdm : x / 10 * 10 + x % 10 = x := by omega
    generalize (10 : Nat) ^ (natDigits (x / 10)).length = P
    linarith

/-- Parsing the decimal digits of `n` yields `n`. -/
theorem parseNat_natDigits (n : Nat) : parseNat (natDigits n) 0 = n := by
  simpa using parseNat_natDigits_acc n 0

/-- `takeWhile` over a satisfied prefix stops exactly at the first
failing element. -/
theorem takeWhile_append_stop (p : Char → Bool) (l1 : List Char) (a : Char)
    (l2 : List Char) (h1 : ∀ c ∈ l1, p c = true) (ha : p a = false) :
    (l1 ++ a :: l2).takeWhile p = l1 := by
  induction l1 with
  | nil => simp [List.takeWhile_cons, ha]
  | cons c l ih =>
    rw [List.cons_append]
    simp only [List.takeWhile_cons, h1 c (List.mem_cons_self c l), if_true]
    rw [ih fun d hd => h1 d (List.mem_cons_of_mem c hd)]

/-- `dropWhile` over a satisfied prefix drops exactly up to the first
failing element. -/
theorem dropWhile_append_stop (p : Char → Bool) (l1 : List Char) (a : Char)
    (l2 : List Char) (h1 : ∀ c ∈ l1, p c = true) (ha : p a = false) :
    (l1 ++ a :: l2).dropWhile p = a :: l2 := by
  induction l1 with
  | nil => simp [List.dropWhile_cons, ha]
  | cons c l ih =>
    rw [List.cons_append]
    simp only [List.dropWhile_cons, h1 c (List.mem_cons_self c l), if_true]
    exact ih fun d hd => h1 d (List.mem_cons_of_mem c hd)

/-- C10: for a configuration bit with non-negative coordinates,
`to_string` emits exactly `[!]F<frame>B<bit>` (the `!` present iff the
bit is inverted), and `cbit_from_str` parses that text back to the
original bit. -/
theorem cbit_string_round_trip (b : ConfigBit) (hf : 0 ≤ b.frame) (hb : 0 ≤ b.bit) :
    (to_string b).data =
      (if b.inv then ['!'] else []) ++
        'F' :: (natDigits b.frame.toNat ++ 'B' :: natDigits b.bit.toNat) ∧
    cbit_from_str (to_string b) = b := by
  have hfr : ¬b.frame < 0 := by omega
  have hbt : ¬b.bit < 0 := by omega
  have hdata : (to_string b).data =
      (if b.inv then ['!'] else []) ++
        'F' :: (natDigits b.frame.toNat ++ 'B' :: natDigits b.bit.toNat) := by
    rw [to_string, intRepr, intRepr, if_neg hfr, if_neg hbt]
    cases hinv : b.inv
    · simp [String.data_append]
    · simp [String.data_append]
  have hdigF : ∀ c ∈ natDigits b.frame.toNat, (c != 'B') = true := by
    intro c hc
    obtain ⟨d, hd, rfl⟩ := natDigits_digits _ c hc
    exact digitChar_bne_B d hd
  have hbody :
      cbit_body (natDigits b.frame.toNat ++ 'B' :: natDigits b.bit.toNat) b.inv = b := by
    simp only [cbit_body]
    rw [takeWhile_append_stop _ _ _ _ hdigF (by decide),
      dropWhile_append_stop _ _ _ _ hdigF (by decide)]
    simp only [List.drop_succ_cons, List.drop_zero]
    rw [parseNat_natDigits, parseNat_natDigits]
    show (⟨(b.frame.toNat : Int), (b.bit.toNat : Int), b.inv⟩ : ConfigBit) = b
    rw [Int.toNat_of_nonneg hf, Int.toNat_of_nonneg hb]
  refine ⟨hdata, ?_⟩
  simp only [cbit_from_str]
  rw [hdata]
  cases hinv : b.inv
  · simp only [Bool.false_eq_true, if_false, List.nil_append, if_true]
    exact hinv ▸ hbody
  · simp only [if_true, List.cons_append, List.nil_append]
    exact hinv ▸ hbody

/-- Witness for C10 at frame 13, bit 7, inverted. -/
theorem cbit_string_round_trip_witness :
    cbit_from_str (to_string ⟨13, 7, true⟩) = (⟨13, 7, true⟩ : ConfigBit) :=
  (cbit_string_round_trip ⟨13, 7, true⟩ (by decide) (by decide)).2

/-! ### Read characterizations of the write primitives -/

/-- Reading after a point write. -/
theorem write_read (t : CRAMView) (f b : Int) (v : Bool) (f' b' : Int) :
    (t.write f b v).read f' b' = if f' = f ∧ b' = b then v else t.read f' b' :=
  rfl

/-- Reading after a fold of constant-valued point writes: coordinates in
the written list hold the constant, everything else is untouched. -/
theorem foldl_write_const_read (u : ConfigBit → Bool) (val : Bool) (bs : List ConfigBit)
    (hu : ∀ cb ∈ bs, u cb = val) (t : CRAMView) (fr bt : Int) :
    (bs.foldl (fun tt cb => tt.write cb.frame cb.bit (u cb)) t).read fr bt =
      if (fr, bt) ∈ bs.map (fun cb => (cb.frame, cb.bit)) then val else t.read fr bt := by
  induction bs generalizing t with
  | nil => simp
  | cons cb rest ih =>
    rw [List.foldl_cons, ih fun d hd => hu d (List.mem_cons_of_mem cb hd)]
    by_cases hr : (fr, bt) ∈ rest.map fun cb => (cb.frame, cb.bit)
    · simp [hr]
    · by_cases hh : (fr, bt) = (cb.frame, cb.bit)
      · have h1 : fr = cb.frame := congrArg Prod.fst hh
        have h2 : bt = cb.bit := congrArg Prod.snd hh
        simp [hr, hh, CRAMView.write, h1, h2, hu cb (List.mem_cons_self cb rest)]
      · have hne : ¬(fr = cb.frame ∧ bt = cb.bit) := by
          rintro ⟨h1, h2⟩
          exact hh (by rw [h1, h2])
        simp [hr, hh, CRAMView.write, hne]

/-- Reading after `set_group` of a non-inverted group. -/
theorem set_group_read (g : BitGroup) (hg : noInv g) (t : CRAMView) (fr bt : Int) :
    (g.set_group t).read fr bt = if (fr, bt) ∈ g.coords then true else t.read fr bt :=
  foldl_write_const_read (fun cb => !cb.inv) true g.bits
    (fun cb hcb => by simp only []; rw [hg cb hcb]; rfl) t fr bt

/-- Reading after `clear_group` of a non-inverted group. -/
theorem clear_group_read (g : BitGroup) (hg : noInv g) (t : CRAMView) (fr bt : Int) :
    (g.clear_group t).read fr bt = if (fr, bt) ∈ g.coords then false else t.read fr bt :=
  foldl_write_const_read (fun cb => cb.inv) false g.bits hg t fr bt

/-- Reading after clearing a list of non-inverted groups. -/
theorem foldl_clear_read {α : Type} (f : α → BitGroup) (l : List α)
    (hinv : ∀ x ∈ l, noInv (f x)) (t : CRAMView) (fr bt : Int) :
    (l.foldl (fun tt x => (f x).clear_group tt) t).read fr bt =
      if ∃ x ∈ l, (fr, bt) ∈ (f x).coords then false else t.read fr bt := by
  induction l generalizing t with
  | nil => simp
  | cons x rest ih =>
    rw [List.foldl_cons, ih fun y hy => hinv y (List.mem_cons_of_mem x hy)]
    by_cases hr : ∃ y ∈ rest, (fr, bt) ∈ (f y).coords
    · simp [hr]
    · rw [clear_group_read (f x) (hinv x (List.mem_cons_self x rest))]
      by_cases hx : (fr, bt) ∈ (f x).coords
      · simp [hr, hx]
      · simp [hr, hx]

/-- Reading after the full effect of a driver selection: the selected
arc's coordinates are set, the rest of the mux's coordinates cleared,
everything else untouched. -/
theorem muxApply_read (m : MuxBits) (a : ArcData) (ha : a ∈ m.arcs)
    (hwf : ∀ x ∈ m.arcs, noInv x.bits) (t : CRAMView) (fr bt : Int) :
    (muxApply m a t).read fr bt =
      if (fr, bt) ∈ a.bits.coords then true
      else if (fr, bt) ∈ m.coords then false
      else t.read fr bt := by
  have hfold := foldl_clear_read (fun arc => arc.bits) m.arcs hwf t fr bt
  have hset := set_group_read a.bits (hwf a ha)
    (m.arcs.foldl (fun tt arc => arc.bits.clear_group tt) t) fr bt
  have hiff : (∃ x ∈ m.arcs, (fr, bt) ∈ x.bits.coords) ↔ (fr, bt) ∈ m.coords := by
    simp [MuxBits.coords]
  rw [muxApply] at *
  rw [hset, hfold]
  by_cases hx : (fr, bt) ∈ a.bits.coords
  · simp [hx]
  · by_cases hm : (fr, bt) ∈ m.coords
    · simp [hx, hm, hiff]
    · simp [hx, hm, hiff]

/-- Reading after the full effect of an enum option selection. -/
theorem enumApply_read (e : EnumSettingBits) (o : String × BitGroup) (ho : o ∈ e.options)
    (hwf : ∀ x ∈ e.options, noInv x.2) (t : CRAMView) (fr bt : Int) :
    (enumApply e o t).read fr bt =
      if (fr, bt) ∈ o.2.coords then true
      else if (fr, bt) ∈ e.coords then false
      else t.read fr bt := by
  have hfold := foldl_clear_read (fun op => op.2) e.options (fun x hx => hwf x hx) t fr bt
  have hset := set_group_read o.2 (hwf o ho)
    (e.options.foldl (fun tt op => op.2.clear_group tt) t) fr bt
  have hiff : (∃ x ∈ e.options, (fr, bt) ∈ x.2.coords) ↔ (fr, bt) ∈ e.coords := by
    simp [EnumSettingBits.coords]
  rw [enumApply] at *
  rw [hset, hfold]
  by_cases hx : (fr, bt) ∈ o.2.coords
  · simp [hx]
  · by_cases hm : (fr, bt) ∈ e.coords
    · simp [hx, hm, hiff]
    · simp [hx, hm, hiff]

/-- A fold of positional set/clear steps does not change coordinates
outside every group. -/
theorem foldl_setclear_outside (zs : List (BitGroup × Bool)) (fr bt : Int)
    (h : ∀ p ∈ zs, (fr, bt) ∉ p.1.coords) (hinv : ∀ p ∈ zs, noInv p.1) (t : CRAMView) :
    ((zs.foldl (fun tt p => if p.2 then p.1.set_group tt else p.1.clear_group tt) t).read fr bt) =
      t.read fr bt := by
  induction zs generalizing t with
  | nil => rfl
  | cons p rest ih =>
    rw [List.foldl_cons,
      ih (fun q hq => h q (List.mem_cons_of_mem p hq))
        (fun q hq => hinv q (List.mem_cons_of_mem p hq))]
    cases hp2 : p.2
    · simp only [Bool.false_eq_true, if_false]
      rw [clear_group_read p.1 (hinv p (List.mem_cons_self p rest))]
      simp [h p (List.mem_cons_self p rest)]
    · simp only [if_true]
      rw [set_group_read p.1 (hinv p (List.mem_cons_self p rest))]
      simp [h p (List.mem_cons_self p rest)]

/-- After a fold of positional set/clear steps over pairwise-disjoint
non-inverted groups, a coordinate of one group reads that group's
value. -/
theorem foldl_setclear_read (zs : List (BitGroup × Bool))
    (hinv : ∀ p ∈ zs, noInv p.1)
    (hdisj : zs.Pairwise fun p q => ∀ y ∈ p.1.coords, y ∉ q.1.coords)
    (g : BitGroup) (x : Bool) (hgx : (g, x) ∈ zs) (fr bt : Int)
    (hmem : (fr, bt) ∈ g.coords) (t : CRAMView) :
    ((zs.foldl (fun tt p => if p.2 then p.1.set_group tt else p.1.clear_group tt) t).read fr bt) =
      x := by
  induction zs generalizing t with
  | nil => cases hgx
  | cons p rest ih =>
    rcases List.mem_cons.mp hgx with heq | hmem'
    · obtain rfl : p = (g, x) := heq.symm
      rw [List.foldl_cons]
      rw [foldl_setclear_outside rest fr bt
        (fun q hq => (List.pairwise_cons.mp hdisj).1 q hq (fr, bt) hmem)
        (fun q hq => hinv q (List.mem_cons_of_mem _ hq))]
      cases x
      · simp only [Bool.false_eq_true, if_false]
        rw [clear_group_read g (hinv (g, false) (List.mem_cons_self _ rest))]
        simp [hmem]
      · simp only [if_true]
        rw [set_group_read g (hinv (g, true) (List.mem_cons_self _ rest))]
        simp [hmem]
    · rw [List.foldl_cons]
      exact ih (fun q hq => hinv q (List.mem_cons_of_mem p hq))
        (List.pairwise_cons.mp hdisj).2 hmem' _

/-- Reading after the full effect of a word value assignment: a
coordinate of the `i`-th positional group reads the `i`-th value bit. -/
theorem wordApply_read (w : WordSettingBits) (v : List Bool) (hwf : WordWF w)
    (hlen : v.length = w.bits.length) (g : BitGroup) (x : Bool)
    (hgx : (g, x) ∈ w.bits.zip v) (fr bt : Int) (hmem : (fr, bt) ∈ g.coords)
    (t : CRAMView) :
    (wordApply w v t).read fr bt = x := by
  rw [wordApply]
  apply foldl_setclear_read
  · intro p hp
    exact hwf.1 p.1 (List.of_mem_zip hp).1
  · have hmapfst : (w.bits.zip v).map Prod.fst = w.bits :=
      List.map_fst_zip w.bits v (le_of_eq hlen.symm)
    have := hwf.2.2
    rw [← hmapfst] at this
    exact (List.pairwise_map).mp this
  · exact hgx
  · exact hmem

/-! ### Composing localized operations -/

/-- One step of `applyOps`. -/
theorem applyOps_cons (o : LocalOp) (rest : List LocalOp) (t : CRAMView) :
    applyOps (o :: rest) t = applyOps rest (o.op t) :=
  rfl

/-- A sequence of localized ops does not change a coordinate outside all
their regions. -/
theorem applyOps_untouched (ops : List LocalOp) (fr bt : Int)
    (hloc : ∀ o ∈ ops, o.Localized) (h : ∀ o ∈ ops, (fr, bt) ∉ o.region) (t : CRAMView) :
    (applyOps ops t).read fr bt = t.read fr bt := by
  induction ops generalizing t with
  | nil => rfl
  | cons o rest ih =>
    rw [applyOps_cons,
      ih (fun q hq => hloc q (List.mem_cons_of_mem o hq))
        (fun q hq => h q (List.mem_cons_of_mem o hq)),
      (hloc o (List.mem_cons_self o rest)).1 t fr bt (h o (List.mem_cons_self o rest))]

/-- After a sequence of localized, pairwise-region-disjoint ops, a
coordinate inside one op's region reads what that op alone would have
written, regardless of the incoming CRAM. -/
theorem applyOps_read (ops : List LocalOp)
    (hloc : ∀ o ∈ ops, o.Localized)
    (hdisj : ops.Pairwise fun o1 o2 => ∀ p ∈ o1.region, p ∉ o2.region)
    (o : LocalOp) (ho : o ∈ ops) (fr bt : Int) (hfb : (fr, bt) ∈ o.region)
    (t t₀ : CRAMView) :
    (applyOps ops t).read fr bt = (o.op t₀).read fr bt := by
  induction ops generalizing t with
  | nil => cases ho
  | cons x rest ih =>
    rcases List.mem_cons.mp ho with heq | hmem
    · subst heq
      rw [applyOps_cons,
        applyOps_untouched rest fr bt (fun q hq => hloc q (List.mem_cons_of_mem o hq))
          (fun q hq => (List.pairwise_cons.mp hdisj).1 q hq (fr, bt) hfb) (o.op t)]
      exact (hloc o (List.mem_cons_self o rest)).2 t t₀ fr bt hfb
    · rw [applyOps_cons]
      exact ih (fun q hq => hloc q (List.mem_cons_of_mem x hq))
        (List.pairwise_cons.mp hdisj).2 hmem (x.op t)

/-! ### Encode bridges: the config walk as a sequence of localized ops -/

/-- A found driver makes `set_driver` succeed with the `muxApply`
effect. -/
theorem set_driver_ok (m : MuxBits) (t : CRAMView) (d : String) (a : ArcData)
    (ha : m.arcs.find? (fun x => x.source == d) = some a) :
    m.set_driver t d = .ok (muxApply m a t) := by
  simp only [MuxBits.set_driver, ha]
  rfl

/-- A width-matching value makes word `set_value` succeed with the
`wordApply` effect. -/
theorem word_set_value_ok (w : WordSettingBits) (t : CRAMView) (v : List Bool)
    (hlen : v.length = w.bits.length) :
    w.set_value t v = .ok (wordApply w v t) := by
  simp only [WordSettingBits.set_value, if_pos hlen]
  rfl

/-- A found option makes enum `set_value` succeed with the `enumApply`
effect. -/
theorem enum_set_value_ok (e : EnumSettingBits) (t : CRAMView) (val : String)
    (o : String × BitGroup) (ho : e.options.find? (fun x => x.1 == val) = some o) :
    e.set_value t val = .ok (enumApply e o t) := by
  simp only [EnumSettingBits.set_value, ho]
  rfl

/-- In a duplicate-key-free association list, looking up a member's key
yields its value. -/
theorem lookup_eq_of_nodup {α : Type} (l : List (String × α))
    (hnd : (l.map Prod.fst).Nodup) (p : String × α) (hp : p ∈ l) :
    l.lookup p.1 = some p.2 := by
  induction l with
  | nil => cases hp
  | cons q rest ih =>
    rcases List.mem_cons.mp hp with rfl | hmem
    · simp [List.lookup]
    · have hne : p.1 ≠ q.1 := by
        intro h
        have hq1 : q.1 ∈ rest.map Prod.fst := h ▸ List.mem_map_of_mem Prod.fst hmem
        exact (List.nodup_cons.mp hnd).1 hq1
      rcases q with ⟨k, m⟩
      simp only [List.lookup]
      have hbeq : (p.1 == k) = false := by simpa using hne
      rw [hbeq]
      exact ih (List.nodup_cons.mp hnd).2 hmem

/-- The mux phase of the encode equals the fold of mux local ops. -/
theorem applyArcs_ok (muxes : List (String × MuxBits)) (arcs : List ConfigArc)
    (ms : List (String × MuxBits)) (t : CRAMView)
    (hfa : List.Forall₂ (fun (ca : ConfigArc) (p : String × MuxBits) =>
      muxes.lookup ca.sink = some p.2 ∧
      (p.2.arcs.find? fun x => x.source == ca.source).isSome) arcs ms) :
    applyArcs muxes arcs t = .ok (applyOps ((arcs.zip ms).map muxOpOf) t) := by
  induction hfa generalizing t with
  | nil => rfl
  | @cons ca p l₁ l₂ hq hrest ih =>
    obtain ⟨hlook, hfind⟩ := hq
    obtain ⟨a, hfa2⟩ := Option.isSome_iff_exists.mp hfind
    simp only [applyArcs, hlook]
    rw [set_driver_ok _ _ _ _ hfa2]
    simp only [List.zip_cons_cons, List.map_cons, applyOps_cons]
    have hop : (muxOpOf (ca, p)).op t = muxApply p.2 a t := by
      simp only [muxOpOf, hfa2]
    rw [hop]
    exact ih (muxApply p.2 a t)

/-- The word phase of the encode equals the fold of word local ops. -/
theorem applyWords_ok (words : List (String × WordSettingBits)) (ws : List ConfigWord)
    (ps : List (String × WordSettingBits)) (t : CRAMView)
    (hfa : List.Forall₂ (fun (wv : ConfigWord) (p : String × WordSettingBits) =>
      words.lookup wv.name = some p.2 ∧ wv.value.length = p.2.bits.length) ws ps) :
    applyWords words ws t = .ok (applyOps ((ws.zip ps).map wordOpOf) t) := by
  induction hfa generalizing t with
  | nil => rfl
  | @cons wv p l₁ l₂ hq hrest ih =>
    obtain ⟨hlook, hlen⟩ := hq
    simp only [applyWords, hlook]
    rw [word_set_value_ok _ _ _ hlen]
    simp only [List.zip_cons_cons, List.map_cons, applyOps_cons]
    exact ih (wordApply p.2 wv.value t)

/-- The enum phase of the encode equals the fold of enum local ops. -/
theorem applyEnums_ok (enums : List (String × EnumSettingBits)) (es : List ConfigEnum)
    (ps : List (String × EnumSettingBits)) (t : CRAMView)
    (hfa : List.Forall₂ (fun (ev : ConfigEnum) (p : String × EnumSettingBits) =>
      enums.lookup ev.name = some p.2 ∧
      (p.2.options.find? fun o => o.1 == ev.value).isSome) es ps) :
    applyEnums enums es t = .ok (applyOps ((es.zip ps).map enumOpOf) t) := by
  induction hfa generalizing t with
  | nil => rfl
  | @cons ev p l₁ l₂ hq hrest ih =>
    obtain ⟨hlook, hfind⟩ := hq
    obtain ⟨o, hfo⟩ := Option.isSome_iff_exists.mp hfind
    simp only [applyEnums, hlook]
    rw [enum_set_value_ok _ _ _ _ hfo]
    simp only [List.zip_cons_cons, List.map_cons, applyOps_cons]
    have hop : (enumOpOf (ev, p)).op t = enumApply p.2 o t := by
      simp only [enumOpOf, hfo]
    rw [hop]
    exact ih (enumApply p.2 o t)

/-! ### Decoding the encoded CRAM -/

/-- On a CRAM that reads exactly membership in `S` over a group's
coordinates, a non-inverted group matches iff its coordinates lie inside
`S`. -/
theorem matches_iff_subset (x : BitGroup) (hx : noInv x) (T : CRAMView)
    (S : List (Int × Int))
    (hT : ∀ fr bt, (fr, bt) ∈ x.coords → T.read fr bt = decide ((fr, bt) ∈ S)) :
    (x.matches T = true) ↔ ∀ p ∈ x.coords, p ∈ S := by
  simp only [BitGroup.matches, List.all_eq_true]
  constructor
  · intro h p hp
    obtain ⟨cb, hcb, rfl⟩ := List.mem_map.mp hp
    have h1 := h cb hcb
    rw [hx cb hcb, hT cb.frame cb.bit (List.mem_map_of_mem _ hcb)] at h1
    simpa using h1
  · intro h cb hcb
    rw [hx cb hcb, hT cb.frame cb.bit (List.mem_map_of_mem _ hcb)]
    have := h (cb.frame, cb.bit) (List.mem_map_of_mem _ hcb)
    simp [this]

/-- A filter keeping `a`, rejecting everything else, over a list holding
`a` at one position only, is `[a]`. -/
theorem filter_eq_singleton_of {α : Type} (p : α → Bool) (l : List α) (a : α)
    (ha : a ∈ l) (hpa : p a = true)
    (hothers : ∀ x ∈ l, x ≠ a → p x = false)
    (honce : l.Pairwise fun x y => ¬(x = a ∧ y = a)) :
    l.filter p = [a] := by
  induction l with
  | nil => cases ha
  | cons x rest ih =>
    rcases List.mem_cons.mp ha with rfl | hmem
    · rw [List.filter_cons, if_pos hpa]
      have hnil : rest.filter p = [] := by
        rw [List.filter_eq_nil_iff]
        intro y hy
        have hya : ¬(a = a ∧ y = a) := (List.pairwise_cons.mp honce).1 y hy
        have hyne : y ≠ a := fun h => hya ⟨rfl, h⟩
        simp [hothers y (List.mem_cons_of_mem _ hy) hyne]
      rw [hnil]
    · have hxa : x ≠ a := by
        rintro rfl
        exact (List.pairwise_cons.mp honce).1 x hmem ⟨rfl, rfl⟩
      rw [List.filter_cons, if_neg (by simp [hothers x (List.mem_cons_self x rest) hxa])]
      exact ih hmem (fun y hy hya => hothers y (List.mem_cons_of_mem _ hy) hya)
        (List.pairwise_cons.mp honce).2

/-- `find?` returns `a` when `a` is in the list, satisfies the
predicate, and is the only satisfying value. -/
theorem find?_eq_some_of {α : Type} (p : α → Bool) (l : List α) (a : α)
    (ha : a ∈ l) (hpa : p a = true) (huniq : ∀ x ∈ l, p x = true → x = a) :
    l.find? p = some a := by
  induction l with
  | nil => cases ha
  | cons x rest ih =>
    by_cases hx : p x = true
    · rw [List.find?_cons_of_pos _ hx, huniq x (List.mem_cons_self x rest) hx]
    · rw [List.find?_cons_of_neg _ hx]
      have hax : a ≠ x := fun h => hx (h ▸ hpa)
      exact ih ((List.mem_cons.mp ha).resolve_left hax)
        (fun y hy hpy => huniq y (List.mem_cons_of_mem _ hy) hpy)

/-- Arc compatibility is symmetric. -/
theorem arcsCompatible_symm : Symmetric arcsCompatible := by
  intro u v huv
  exact ⟨fun h1 h2 => ⟨(huv.1 h2 h1).2, (huv.1 h2 h1).1⟩, fun h => huv.2 ⟨h.2, h.1⟩⟩

/-- Option compatibility is symmetric. -/
theorem optsCompatible_symm : Symmetric optsCompatible := by
  intro u v huv
  exact ⟨fun h1 h2 => ⟨(huv.1 h2 h1).2, (huv.1 h2 h1).1⟩, fun h => huv.2 ⟨h.2, h.1⟩⟩

/-- Decoding a mux from a CRAM whose mux region holds exactly the
selected arc's pattern returns the selected driver. -/
theorem mux_decode_after (m : MuxBits) (src : String) (a : ArcData) (hwf : MuxWF m)
    (hfind : m.arcs.find? (fun x => x.source == src) = some a)
    (T : CRAMView) (cov : BitSet)
    (hT : ∀ fr bt, (fr, bt) ∈ m.coords → T.read fr bt = decide ((fr, bt) ∈ a.bits.coords)) :
    (m.get_driver T cov).1 = .ok (some src) := by
  obtain ⟨hinv, hpw⟩ := hwf
  have hamem : a ∈ m.arcs := List.mem_of_find?_eq_some hfind
  have hasrc : a.source = src := by
    have := List.find?_some hfind
    simpa using this
  have hmatch : ∀ x ∈ m.arcs,
      (x.bits.matches T = true ↔ ∀ p ∈ x.bits.coords, p ∈ a.bits.coords) := by
    intro x hx
    apply matches_iff_subset x.bits (hinv x hx) T a.bits.coords
    intro fr bt hmem
    apply hT
    simp only [MuxBits.coords, List.mem_flatMap]
    exact ⟨x, hx, hmem⟩
  by_cases hne : a.bits.bits = []
  · have hfil : m.arcs.filter (fun x => x.bits.matches T && !x.bits.bits.isEmpty) = [] := by
      rw [List.filter_eq_nil_iff]
      intro x hx
      by_cases hxe : x.bits.bits = []
      · simp [hxe]
      · rw [Bool.and_eq_true]
        rintro ⟨hm, -⟩
        have hsub := (hmatch x hx).mp hm
        have hxc : x.bits.coords ≠ [] := by
          simp [BitGroup.coords, hxe]
        obtain ⟨q, hq⟩ := List.exists_mem_of_ne_nil _ hxc
        have : q ∈ a.bits.coords := hsub q hq
        rw [show a.bits.coords = [] by simp [BitGroup.coords, hne]] at this
        cases this
    have hfe : m.arcs.find? (fun x => x.bits.bits.isEmpty) = some a := by
      apply find?_eq_some_of _ _ a hamem (by simp [hne])
      intro x hx hpx
      by_contra hxa
      have hcomp := List.Pairwise.forall arcsCompatible_symm hpw hx hamem hxa
      exact hcomp.2 ⟨by simpa using hpx, hne⟩
    simp only [MuxBits.get_driver, hfil, hfe, hasrc]
  · have hfil : m.arcs.filter (fun x => x.bits.matches T && !x.bits.bits.isEmpty) = [a] := by
      apply filter_eq_singleton_of _ _ a hamem
      · rw [Bool.and_eq_true]
        exact ⟨(hmatch a hamem).mpr fun p hp => hp, by simp [hne]⟩
      · intro x hx hxa
        by_cases hxe : x.bits.bits = []
        · simp [hxe]
        · have hcomp := List.Pairwise.forall arcsCompatible_symm hpw hx hamem hxa
          have hnsub := (hcomp.1 hxe hne).1
          have hmf : x.bits.matches T = false := by
            by_contra h
            rw [Bool.not_eq_false] at h
            exact hnsub ((hmatch x hx).mp h)
          simp [hmf]
      · refine hpw.imp ?_
        intro u v huv
        rintro ⟨rfl, rfl⟩
        exact (huv.1 hne hne).1 fun p hp => hp
    simp only [MuxBits.get_driver, hfil, hasrc]

/-- Decoding an enum from a CRAM whose enum region holds exactly the
selected option's pattern returns the selected option, or unset when it
is the declared default. -/
theorem enum_decode_after (e : EnumSettingBits) (val : String) (o : String × BitGroup)
    (hwf : EnumWF e) (hfind : e.options.find? (fun x => x.1 == val) = some o)
    (T : CRAMView) (cov : BitSet)
    (hT : ∀ fr bt, (fr, bt) ∈ e.coords → T.read fr bt = decide ((fr, bt) ∈ o.2.coords)) :
    (e.get_value T cov).1 = if e.defval = some val then .ok none else .ok (some val) := by
  obtain ⟨hinv, hpw⟩ := hwf
  have homem : o ∈ e.options := List.mem_of_find?_eq_some hfind
  have honame : o.1 = val := by
    have := List.find?_some hfind
    simpa using this
  have hmatch : ∀ x ∈ e.options,
      (x.2.matches T = true ↔ ∀ p ∈ x.2.coords, p ∈ o.2.coords) := by
    intro x hx
    apply matches_iff_subset x.2 (hinv x hx) T o.2.coords
    intro fr bt hmem
    apply hT
    simp only [EnumSettingBits.coords, List.mem_flatMap]
    exact ⟨x, hx, hmem⟩
  by_cases hne : o.2.bits = []
  · have hfil : e.options.filter (fun x => x.2.matches T && !x.2.bits.isEmpty) = [] := by
      rw [List.filter_eq_nil_iff]
      intro x hx
      by_cases hxe : x.2.bits = []
      · simp [hxe]
      · rw [Bool.and_eq_true]
        rintro ⟨hm, -⟩
        have hsub := (hmatch x hx).mp hm
        have hxc : x.2.coords ≠ [] := by
          simp [BitGroup.coords, hxe]
        obtain ⟨q, hq⟩ := List.exists_mem_of_ne_nil _ hxc
        have : q ∈ o.2.coords := hsub q hq
        rw [show o.2.coords = [] by simp [BitGroup.coords, hne]] at this
        cases this
    have hfe : e.options.find? (fun x => x.2.bits.isEmpty) = some o := by
      apply find?_eq_some_of _ _ o homem (by simp [hne])
      intro x hx hpx
      by_contra hxo
      have hcomp := List.Pairwise.forall optsCompatible_symm hpw hx homem hxo
      exact hcomp.2 ⟨by simpa using hpx, hne⟩
    simp only [EnumSettingBits.get_value, hfil, hfe, honame]
    split <;> rfl
  · have hfil : e.options.filter (fun x => x.2.matches T && !x.2.bits.isEmpty) = [o] := by
      apply filter_eq_singleton_of _ _ o homem
      · rw [Bool.and_eq_true]
        exact ⟨(hmatch o homem).mpr fun p hp => hp, by simp [hne]⟩
      · intro x hx hxo
        by_cases hxe : x.2.bits = []
        · simp [hxe]
        · have hcomp := List.Pairwise.forall optsCompatible_symm hpw hx homem hxo
          have hnsub := (hcomp.1 hxe hne).1
          have hmf : x.2.matches T = false := by
            by_contra h
            rw [Bool.not_eq_false] at h
            exact hnsub ((hmatch x hx).mp h)
          simp [hmf]
      · refine hpw.imp ?_
        intro u v huv
        rintro ⟨rfl, rfl⟩
        exact (huv.1 hne hne).1 fun p hp => hp
    simp only [EnumSettingBits.get_value, hfil, honame]
    split <;> rfl

/-- Decoding positional groups from a CRAM that stores each group's
value bit over its coordinates recovers the stored value. -/
theorem map_matches_eq (gs : List BitGroup) (v : List Bool)
    (hinv : ∀ g ∈ gs, noInv g) (hne : ∀ g ∈ gs, g.bits ≠ [])
    (hlen : v.length = gs.length) (T : CRAMView)
    (hT : ∀ g x, (g, x) ∈ gs.zip v → ∀ fr bt, (fr, bt) ∈ g.coords → T.read fr bt = x) :
    (gs.map fun g => g.matches T) = v := by
  induction gs generalizing v with
  | nil =>
    cases v with
    | nil => rfl
    | cons x xs => simp at hlen
  | cons g rest ih =>
    cases v with
    | nil => simp at hlen
    | cons x xs =>
      rw [List.map_cons]
      have hg := hT g x (by simp)
      have hgmem : g ∈ g :: rest := List.mem_cons_self g rest
      congr 1
      · cases x
        · have hcne : g.coords ≠ [] := by
            simp [BitGroup.coords, hne g hgmem]
          obtain ⟨q, hq⟩ := List.exists_mem_of_ne_nil _ hcne
          by_contra h
          rw [Bool.not_eq_false] at h
          obtain ⟨cb, hcb, rfl⟩ := List.mem_map.mp hq
          have h1 := (List.all_eq_true.mp h) cb hcb
          rw [hinv g hgmem cb hcb,
            hg cb.frame cb.bit (List.mem_map_of_mem _ hcb)] at h1
          simp at h1
        · simp only [BitGroup.matches, List.all_eq_true]
          intro cb hcb
          rw [hinv g hgmem cb hcb, hg cb.frame cb.bit (List.mem_map_of_mem _ hcb)]
          rfl
      · exact ih xs (fun q hq => hinv q (List.mem_cons_of_mem g hq))
          (fun q hq => hne q (List.mem_cons_of_mem g hq))
          (by simpa using hlen)
          (fun q y hqy => hT q y (by rw [List.zip_cons_cons]; exact List.mem_cons_of_mem _ hqy))

/-! ### The configured ops are localized and disjoint -/

/-- Every member of a list as long as another has a zip partner. -/
theorem exists_zip_partner {α β : Type} (gs : List α) (v : List β) (g : α)
    (hg : g ∈ gs) (hlen : v.length = gs.length) : ∃ x, (g, x) ∈ gs.zip v := by
  induction gs generalizing v with
  | nil => cases hg
  | cons a rest ih =>
    cases v with
    | nil => simp at hlen
    | cons x xs =>
      rcases List.mem_cons.mp hg with rfl | hmem
      · exact ⟨x, by simp⟩
      · obtain ⟨y, hy⟩ := ih xs hmem (by simpa using hlen)
        exact ⟨y, by rw [List.zip_cons_cons]; exact List.mem_cons_of_mem _ hy⟩

/-- A configured mux op is localized to its mux's coordinates. -/
theorem muxOpOf_localized (q : ConfigArc × (String × MuxBits)) (hwf : MuxWF q.2.2)
    (hfind : (q.2.2.arcs.find? fun x => x.source == q.1.source).isSome) :
    (muxOpOf q).Localized := by
  obtain ⟨a, hfa⟩ := Option.isSome_iff_exists.mp hfind
  have hamem : a ∈ q.2.2.arcs := List.mem_of_find?_eq_some hfa
  constructor
  · intro t fr bt hout
    simp only [muxOpOf] at hout ⊢
    rw [hfa, muxApply_read _ a hamem hwf.1]
    have hnota : (fr, bt) ∉ a.bits.coords := by
      intro h
      apply hout
      simp only [MuxBits.coords, List.mem_flatMap]
      exact ⟨a, hamem, h⟩
    simp [hnota, hout]
  · intro t t' fr bt hin
    simp only [muxOpOf] at hin ⊢
    rw [hfa, muxApply_read _ a hamem hwf.1, muxApply_read _ a hamem hwf.1]
    by_cases hx : (fr, bt) ∈ a.bits.coords
    · simp [hx]
    · simp [hx, hin]

/-- A configured enum op is localized to its enum's coordinates. -/
theorem enumOpOf_localized (q : ConfigEnum × (String × EnumSettingBits)) (hwf : EnumWF q.2.2)
    (hfind : (q.2.2.options.find? fun o => o.1 == q.1.value).isSome) :
    (enumOpOf q).Localized := by
  obtain ⟨o, hfo⟩ := Option.isSome_iff_exists.mp hfind
  have homem : o ∈ q.2.2.options := List.mem_of_find?_eq_some hfo
  constructor
  · intro t fr bt hout
    simp only [enumOpOf] at hout ⊢
    rw [hfo, enumApply_read _ o homem hwf.1]
    have hnoto : (fr, bt) ∉ o.2.coords := by
      intro h
      apply hout
      simp only [EnumSettingBits.coords, List.mem_flatMap]
      exact ⟨o, homem, h⟩
    simp [hnoto, hout]
  · intro t t' fr bt hin
    simp only [enumOpOf] at hin ⊢
    rw [hfo, enumApply_read _ o homem hwf.1, enumApply_read _ o homem hwf.1]
    by_cases hx : (fr, bt) ∈ o.2.coords
    · simp [hx]
    · simp [hx, hin]

/-- A configured word op is localized to its word's coordinates. -/
theorem wordOpOf_localized (q : ConfigWord × (String × WordSettingBits)) (hwf : WordWF q.2.2)
    (hlen : q.1.value.length = q.2.2.bits.length) :
    (wordOpOf q).Localized := by
  constructor
  · intro t fr bt hout
    simp only [wordOpOf] at hout ⊢
    rw [wordApply]
    apply foldl_setclear_outside
    · intro p hp hmem
      apply hout
      simp only [WordSettingBits.coords, List.mem_flatMap]
      exact ⟨p.1, (List.of_mem_zip hp).1, hmem⟩
    · intro p hp
      exact hwf.1 p.1 (List.of_mem_zip hp).1
  · intro t t' fr bt hin
    simp only [wordOpOf] at hin ⊢
    simp only [WordSettingBits.coords, List.mem_flatMap] at hin
    obtain ⟨g, hgmem, hgc⟩ := hin
    obtain ⟨x, hx⟩ := exists_zip_partner q.2.2.bits q.1.value g hgmem hlen
    rw [wordApply_read q.2.2 q.1.value hwf hlen g x hx fr bt hgc t,
      wordApply_read q.2.2 q.1.value hwf hlen g x hx fr bt hgc t']

/-- The op regions of a complete configuration are exactly the database
regions, in order. -/
theorem allOps_regions (db : TileBitDatabase) (c : TileConfig)
    (h1 : c.carcs.length = db.muxes.length)
    (h2 : c.cwords.length = db.words.length)
    (h3 : c.cenums.length = db.enums.length) :
    (allOps db c).map LocalOp.region = regions db := by
  have e1 : (c.carcs.zip db.muxes).map Prod.snd = db.muxes :=
    List.map_snd_zip c.carcs db.muxes (le_of_eq h1.symm)
  have e2 : (c.cwords.zip db.words).map Prod.snd = db.words :=
    List.map_snd_zip c.cwords db.words (le_of_eq h2.symm)
  have e3 : (c.cenums.zip db.enums).map Prod.snd = db.enums :=
    List.map_snd_zip c.cenums db.enums (le_of_eq h3.symm)
  simp only [allOps, regions, List.map_append, List.map_map]
  congr 1
  · congr 1
    · conv_rhs => rw [← e1, List.map_map]
      rfl
    · conv_rhs => rw [← e2, List.map_map]
      rfl
  · conv_rhs => rw [← e3, List.map_map]
    rfl

/-- The configured ops have pairwise disjoint regions. -/
theorem allOps_disjoint (db : TileBitDatabase) (c : TileConfig)
    (h1 : c.carcs.length = db.muxes.length)
    (h2 : c.cwords.length = db.words.length)
    (h3 : c.cenums.length = db.enums.length)
    (hreg : (regions db).Pairwise fun r1 r2 => ∀ p ∈ r1, p ∉ r2) :
    (allOps db c).Pairwise fun o1 o2 => ∀ p ∈ o1.region, p ∉ o2.region := by
  rw [← allOps_regions db c h1 h2 h3] at hreg
  exact (List.pairwise_map).mp hreg

/-- Every configured op is localized. -/
theorem allOps_localized (db : TileBitDatabase) (c : TileConfig)
    (hdb : TileDBWF db) (hc : ValidConfig db c) :
    ∀ o ∈ allOps db c, o.Localized := by
  intro o ho
  simp only [allOps, List.mem_append, List.mem_map] at ho
  rcases ho with (⟨q, hq, rfl⟩ | ⟨q, hq, rfl⟩) | ⟨q, hq, rfl⟩
  · exact muxOpOf_localized q (hdb.1 q.2 (List.of_mem_zip hq).2).2 (hc.1.2 q hq).2
  · exact wordOpOf_localized q (hdb.2.1 q.2 (List.of_mem_zip hq).2).2 (hc.2.1.2 q hq).2
  · exact enumOpOf_localized q (hdb.2.2.1 q.2 (List.of_mem_zip hq).2).2 (hc.2.2.2 q hq).2

/-- Under validity, the full encode succeeds and equals the op fold. -/
theorem config_to_tile_cram_ok (db : TileBitDatabase) (c : TileConfig)
    (hdb : TileDBWF db) (hc : ValidConfig db c) (t : CRAMView) :
    db.config_to_tile_cram c t = .ok (applyOps (allOps db c) t) := by
  have hfa1 : List.Forall₂ (fun (ca : ConfigArc) (p : String × MuxBits) =>
      db.muxes.lookup ca.sink = some p.2 ∧
      (p.2.arcs.find? fun x => x.source == ca.source).isSome) c.carcs db.muxes := by
    rw [List.forall₂_iff_zip]
    refine ⟨hc.1.1, ?_⟩
    intro ca p hq
    have h1 := hc.1.2 (ca, p) hq
    have hpmem := (List.of_mem_zip hq).2
    refine ⟨?_, h1.2⟩
    rw [h1.1]
    exact lookup_eq_of_nodup db.muxes hdb.2.2.2.1 p hpmem
  have hfa2 : List.Forall₂ (fun (wv : ConfigWord) (p : String × WordSettingBits) =>
      db.words.lookup wv.name = some p.2 ∧ wv.value.length = p.2.bits.length)
      c.cwords db.words := by
    rw [List.forall₂_iff_zip]
    refine ⟨hc.2.1.1, ?_⟩
    intro wv p hq
    have h1 := hc.2.1.2 (wv, p) hq
    have hpmem := (List.of_mem_zip hq).2
    refine ⟨?_, h1.2⟩
    rw [h1.1]
    exact lookup_eq_of_nodup db.words hdb.2.2.2.2.1 p hpmem
  have hfa3 : List.Forall₂ (fun (ev : ConfigEnum) (p : String × EnumSettingBits) =>
      db.enums.lookup ev.name = some p.2 ∧
      (p.2.options.find? fun o => o.1 == ev.value).isSome) c.cenums db.enums := by
    rw [List.forall₂_iff_zip]
    refine ⟨hc.2.2.1, ?_⟩
    intro ev p hq
    have h1 := hc.2.2.2 (ev, p) hq
    have hpmem := (List.of_mem_zip hq).2
    refine ⟨?_, h1.2⟩
    rw [h1.1]
    exact lookup_eq_of_nodup db.enums hdb.2.2.2.2.2.1 p hpmem
  have h1 := applyArcs_ok db.muxes c.carcs db.muxes t hfa1
  have h2 : ∀ s, applyWords db.words c.cwords s =
      .ok (applyOps ((c.cwords.zip db.words).map wordOpOf) s) :=
    fun s => applyWords_ok db.words c.cwords db.words s hfa2
  have h3 : ∀ s, applyEnums db.enums c.cenums s =
      .ok (applyOps ((c.cenums.zip db.enums).map enumOpOf) s) :=
    fun s => applyEnums_ok db.enums c.cenums db.enums s hfa3
  rw [TileBitDatabase.config_to_tile_cram]
  simp only [h1, h2, h3]
  simp only [allOps, applyOps, List.foldl_append]

/-- Inside a configured mux's region, the encoded CRAM holds exactly the
selected arc's pattern. -/
theorem encoded_mux_read (db : TileBitDatabase) (c : TileConfig)
    (hdb : TileDBWF db) (hc : ValidConfig db c)
    (q : ConfigArc × (String × MuxBits)) (hq : q ∈ c.carcs.zip db.muxes)
    (a : ArcData) (hfa : q.2.2.arcs.find? (fun x => x.source == q.1.source) = some a)
    (t0 : CRAMView) (fr bt : Int) (hin : (fr, bt) ∈ q.2.2.coords) :
    (applyOps (allOps db c) t0).read fr bt = decide ((fr, bt) ∈ a.bits.coords) := by
  have ho : muxOpOf q ∈ allOps db c :=
    List.mem_append_left _ (List.mem_append_left _ (List.mem_map_of_mem muxOpOf hq))
  rw [applyOps_read (allOps db c) (allOps_localized db c hdb hc)
    (allOps_disjoint db c hc.1.1 hc.2.1.1 hc.2.2.1 hdb.2.2.2.2.2.2)
    (muxOpOf q) ho fr bt hin t0 t0]
  simp only [muxOpOf, hfa]
  rw [muxApply_read _ a (List.mem_of_find?_eq_some hfa)
    (hdb.1 q.2 (List.of_mem_zip hq).2).2.1]
  by_cases hx : (fr, bt) ∈ a.bits.coords
  · simp [hx]
  · simp [hx, hin]

/-- Inside a configured word's region, the encoded CRAM holds the
configured value bit of the positional group covering the coordinate. -/
theorem encoded_word_read (db : TileBitDatabase) (c : TileConfig)
    (hdb : TileDBWF db) (hc : ValidConfig db c)
    (q : ConfigWord × (String × WordSettingBits)) (hq : q ∈ c.cwords.zip db.words)
    (t0 : CRAMView) (g : BitGroup) (x : Bool)
    (hgx : (g, x) ∈ q.2.2.bits.zip q.1.value) (fr bt : Int)
    (hgc : (fr, bt) ∈ g.coords) :
    (applyOps (allOps db c) t0).read fr bt = x := by
  have ho : wordOpOf q ∈ allOps db c :=
    List.mem_append_left _ (List.mem_append_right _ (List.mem_map_of_mem wordOpOf hq))
  have hin : (fr, bt) ∈ q.2.2.coords := by
    simp only [WordSettingBits.coords, List.mem_flatMap]
    exact ⟨g, (List.of_mem_zip hgx).1, hgc⟩
  rw [applyOps_read (allOps db c) (allOps_localized db c hdb hc)
    (allOps_disjoint db c hc.1.1 hc.2.1.1 hc.2.2.1 hdb.2.2.2.2.2.2)
    (wordOpOf q) ho fr bt hin t0 t0]
  exact wordApply_read q.2.2 q.1.value (hdb.2.1 q.2 (List.of_mem_zip hq).2).2
    (hc.2.1.2 q hq).2 g x hgx fr bt hgc t0

/-- Inside a configured enum's region, the encoded CRAM holds exactly
the selected option's pattern. -/
theorem encoded_enum_read (db : TileBitDatabase) (c : TileConfig)
    (hdb : TileDBWF db) (hc : ValidConfig db c)
    (q : ConfigEnum × (String × EnumSettingBits)) (hq : q ∈ c.cenums.zip db.enums)
    (o : String × BitGroup) (hfo : q.2.2.options.find? (fun x => x.1 == q.1.value) = some o)
    (t0 : CRAMView) (fr bt : Int) (hin : (fr, bt) ∈ q.2.2.coords) :
    (applyOps (allOps db c) t0).read fr bt = decide ((fr, bt) ∈ o.2.coords) := by
  have ho : enumOpOf q ∈ allOps db c :=
    List.mem_append_right _ (List.mem_map_of_mem enumOpOf hq)
  rw [applyOps_read (allOps db c) (allOps_localized db c hdb hc)
    (allOps_disjoint db c hc.1.1 hc.2.1.1 hc.2.2.1 hdb.2.2.2.2.2.2)
    (enumOpOf q) ho fr bt hin t0 t0]
  simp only [enumOpOf, hfo]
  rw [enumApply_read _ o (List.mem_of_find?_eq_some hfo)
    (hdb.2.2.1 q.2 (List.of_mem_zip hq).2).2.1]
  by_cases hx : (fr, bt) ∈ o.2.coords
  · simp [hx]
  · simp [hx, hin]

/-- The decoded value component of a word `get_value`. -/
theorem word_get_value_fst (w : WordSettingBits) (T : CRAMView) (cov : BitSet) :
    (w.get_value T cov).1 =
      if (w.bits.map fun g => g.matches T) = w.defval then none
      else some (w.bits.map fun g => g.matches T) := by
  simp only [WordSettingBits.get_value]
  split <;> rfl

/-- The mux walk over muxes that each decode to their configured driver
reproduces the configured arc entries. -/
theorem decodeMuxes_of_pointwise (ms : List (String × MuxBits)) (cas : List ConfigArc)
    (T : CRAMView) (hlen : cas.length = ms.length)
    (hpt : ∀ q ∈ cas.zip ms,
      ((q.2.2.get_driver T ∅).1 = .ok (some q.1.source)) ∧ q.2.2.sink = q.1.sink) :
    decodeMuxes ms T = .ok cas := by
  induction ms generalizing cas with
  | nil =>
    cases cas with
    | nil => rfl
    | cons ca cas' => simp at hlen
  | cons p rest ih =>
    cases cas with
    | nil => simp at hlen
    | cons ca cas' =>
      rcases p with ⟨k, m⟩
      have hhead := hpt (ca, (k, m)) (by simp)
      simp only at hhead
      have hrest := ih cas' (by simpa using hlen)
        (fun q hq => hpt q (by rw [List.zip_cons_cons]; exact List.mem_cons_of_mem _ hq))
      simp only [decodeMuxes, hhead.1, hrest, hhead.2]

/-- The word walk over words that each decode to their configured value
reproduces the non-default configured word entries. -/
theorem decodeWords_of_pointwise (ps : List (String × WordSettingBits))
    (cs : List ConfigWord) (T : CRAMView) (hlen : cs.length = ps.length)
    (hpt : ∀ q ∈ cs.zip ps,
      ((q.2.2.get_value T ∅).1 =
        if q.1.value = q.2.2.defval then none else some q.1.value) ∧
      q.2.2.name = q.1.name) :
    decodeWords ps T = stripWords cs ps := by
  induction ps generalizing cs with
  | nil =>
    cases cs with
    | nil => rfl
    | cons wv cs' => simp at hlen
  | cons p rest ih =>
    cases cs with
    | nil => simp at hlen
    | cons wv cs' =>
      rcases p with ⟨k, w⟩
      have hhead := hpt (wv, (k, w)) (by simp)
      simp only at hhead
      have hrest := ih cs' (by simpa using hlen)
        (fun q hq => hpt q (by rw [List.zip_cons_cons]; exact List.mem_cons_of_mem _ hq))
      by_cases hd : wv.value = w.defval
      · simp only [decodeWords, stripWords, hhead.1, if_pos hd, hrest]
      · simp only [decodeWords, stripWords, hhead.1, if_neg hd, hrest, hhead.2]

/-- The enum walk over enums that each decode to their configured value
(or unset when it is the declared default) reproduces the non-default
configured enum entries. -/
theorem decodeEnums_of_pointwise (ps : List (String × EnumSettingBits))
    (cs : List ConfigEnum) (T : CRAMView) (hlen : cs.length = ps.length)
    (hpt : ∀ q ∈ cs.zip ps,
      ((q.2.2.get_value T ∅).1 =
        if q.2.2.defval = some q.1.value then .ok none else .ok (some q.1.value)) ∧
      q.2.2.name = q.1.name) :
    decodeEnums ps T = .ok (stripEnums cs ps) := by
  induction ps generalizing cs with
  | nil =>
    cases cs with
    | nil => rfl
    | cons ev cs' => simp at hlen
  | cons p rest ih =>
    cases cs with
    | nil => simp at hlen
    | cons ev cs' =>
      rcases p with ⟨k, e⟩
      have hhead := hpt (ev, (k, e)) (by simp)
      simp only at hhead
      have hrest := ih cs' (by simpa using hlen)
        (fun q hq => hpt q (by rw [List.zip_cons_cons]; exact List.mem_cons_of_mem _ hq))
      by_cases hd : e.defval = some ev.value
      · simp only [decodeEnums, stripEnums, hhead.1, if_pos hd, hrest]
      · simp only [decodeEnums, stripEnums, hhead.1, if_neg hd, hrest, hhead.2]

/-- The positional word filter agrees with the lookup-based filter of
`stripDefaults` on aligned lists with duplicate-free keys. -/
theorem stripWords_eq_filter (cs : List ConfigWord) (ps : List (String × WordSettingBits))
    (full : List (String × WordSettingBits)) (hlen : cs.length = ps.length)
    (hlook : ∀ q ∈ cs.zip ps, full.lookup q.1.name = some q.2.2) :
    stripWords cs ps = cs.filter fun wv =>
      match full.lookup wv.name with
      | some w => decide (wv.value ≠ w.defval)
      | none => true := by
  induction ps generalizing cs with
  | nil =>
    cases cs with
    | nil => rfl
    | cons wv cs' => simp at hlen
  | cons p rest ih =>
    cases cs with
    | nil => simp at hlen
    | cons wv cs' =>
      have hhead := hlook (wv, p) (by simp)
      have hrest := ih cs' (by simpa using hlen)
        (fun q hq => hlook q (by rw [List.zip_cons_cons]; exact List.mem_cons_of_mem _ hq))
      rw [List.filter_cons]
      by_cases hd : wv.value = p.2.defval
      · rw [stripWords, if_pos hd, hrest, if_neg]
        simp [hhead, hd]
      · rw [stripWords, if_neg hd, hrest, if_pos]
        simp [hhead, hd]

/-- The positional enum filter agrees with the lookup-based filter of
`stripDefaults` on aligned lists with duplicate-free keys. -/
theorem stripEnums_eq_filter (cs : List ConfigEnum) (ps : List (String × EnumSettingBits))
    (full : List (String × EnumSettingBits)) (hlen : cs.length = ps.length)
    (hlook : ∀ q ∈ cs.zip ps, full.lookup q.1.name = some q.2.2) :
    stripEnums cs ps = cs.filter fun ev =>
      match full.lookup ev.name with
      | some e => decide (e.defval ≠ some ev.value)
      | none => true := by
  induction ps generalizing cs with
  | nil =>
    cases cs with
    | nil => rfl
    | cons ev cs' => simp at hlen
  | cons p rest ih =>
    cases cs with
    | nil => simp at hlen
    | cons ev cs' =>
      have hhead := hlook (ev, p) (by simp)
      have hrest := ih cs' (by simpa using hlen)
        (fun q hq => hlook q (by rw [List.zip_cons_cons]; exact List.mem_cons_of_mem _ hq))
      rw [List.filter_cons]
      by_cases hd : p.2.defval = some ev.value
      · rw [stripEnums, if_pos hd, hrest, if_neg]
        simp [hhead, hd]
      · rw [stripEnums, if_neg hd, hrest, if_pos]
        simp [hhead, hd]

/-- C1: for a well-formed database and a valid complete tile
configuration, encoding into an all-zero CRAM with
`config_to_tile_cram` and decoding back with `tile_cram_to_config`
succeeds and returns the configuration itself, minus the entries whose
value equals their declared default (word entries equal to `defval`,
enum entries whose value is the declared `defval`; mux drivers carry no
declared default field and round-trip unconditionally). -/
theorem config_cram_round_trip (db : TileBitDatabase) (c : TileConfig)
    (hdb : TileDBWF db) (hc : ValidConfig db c) :
    ∃ m, db.config_to_tile_cram c CRAMView.zero = .ok m ∧
      db.tile_cram_to_config m = .ok (stripDefaults db c) := by
  refine ⟨applyOps (allOps db c) CRAMView.zero,
    config_to_tile_cram_ok db c hdb hc CRAMView.zero, ?_⟩
  set T := applyOps (allOps db c) CRAMView.zero with hTdef
  have hdm : decodeMuxes db.muxes T = .ok c.carcs := by
    apply decodeMuxes_of_pointwise db.muxes c.carcs T hc.1.1
    intro q hq
    obtain ⟨a, hfa⟩ := Option.isSome_iff_exists.mp (hc.1.2 q hq).2
    refine ⟨?_, ((hdb.1 q.2 (List.of_mem_zip hq).2).1).trans ((hc.1.2 q hq).1).symm⟩
    exact mux_decode_after q.2.2 q.1.source a (hdb.1 q.2 (List.of_mem_zip hq).2).2 hfa T ∅
      fun fr bt hin => encoded_mux_read db c hdb hc q hq a hfa CRAMView.zero fr bt hin
  have hdw : decodeWords db.words T = stripWords c.cwords db.words := by
    apply decodeWords_of_pointwise db.words c.cwords T hc.2.1.1
    intro q hq
    refine ⟨?_, ((hdb.2.1 q.2 (List.of_mem_zip hq).2).1).trans ((hc.2.1.2 q hq).1).symm⟩
    rw [word_get_value_fst]
    have hdec : (q.2.2.bits.map fun g => g.matches T) = q.1.value := by
      apply map_matches_eq q.2.2.bits q.1.value
        (hdb.2.1 q.2 (List.of_mem_zip hq).2).2.1
        (hdb.2.1 q.2 (List.of_mem_zip hq).2).2.2.1
        (hc.2.1.2 q hq).2 T
      intro g x hgx fr bt hmem
      exact encoded_word_read db c hdb hc q hq CRAMView.zero g x hgx fr bt hmem
    rw [hdec]
  have hde : decodeEnums db.enums T = .ok (stripEnums c.cenums db.enums) := by
    apply decodeEnums_of_pointwise db.enums c.cenums T hc.2.2.1
    intro q hq
    obtain ⟨o, hfo⟩ := Option.isSome_iff_exists.mp (hc.2.2.2 q hq).2
    refine ⟨?_, ((hdb.2.2.1 q.2 (List.of_mem_zip hq).2).1).trans ((hc.2.2.2 q hq).1).symm⟩
    exact enum_decode_after q.2.2 q.1.value o (hdb.2.2.1 q.2 (List.of_mem_zip hq).2).2 hfo T ∅
      fun fr bt hin => encoded_enum_read db c hdb hc q hq o hfo CRAMView.zero fr bt hin
  have hlookw : ∀ q ∈ c.cwords.zip db.words, db.words.lookup q.1.name = some q.2.2 := by
    intro q hq
    rw [(hc.2.1.2 q hq).1]
    exact lookup_eq_of_nodup db.words hdb.2.2.2.2.1 q.2 (List.of_mem_zip hq).2
  have hlooke : ∀ q ∈ c.cenums.zip db.enums, db.enums.lookup q.1.name = some q.2.2 := by
    intro q hq
    rw [(hc.2.2.2 q hq).1]
    exact lookup_eq_of_nodup db.enums hdb.2.2.2.2.2.1 q.2 (List.of_mem_zip hq).2
  rw [TileBitDatabase.tile_cram_to_config]
  simp only [hdm, hde, hdw]
  rw [stripWords_eq_filter c.cwords db.words db.words hc.2.1.1 hlookw,
    stripEnums_eq_filter c.cenums db.enums db.enums hc.2.2.1 hlooke]
  rfl

/-- Witness for C1 on the three-entity fixture database: round-tripping
keeps the mux and word entries and drops the default-valued enum
entry. -/
theorem config_cram_round_trip_witness :
    ∃ m, rtDB.config_to_tile_cram rtCfg CRAMView.zero = .ok m ∧
      rtDB.tile_cram_to_config m = .ok (stripDefaults rtDB rtCfg) :=
  config_cram_round_trip rtDB rtCfg (by decide) (by decide)

end Trellis
